import Mathlib

/-!
Verification of the request-signing core of the bestbooktolearn repository
(package `amazon`, plus the `books` wrapper).

Go strings are modelled as lists of byte values (`List Nat`, each element a
byte); Go's `sort.Strings` compares strings byte-wise, which coincides with
the lexicographic order on these lists.  Pure library primitives used by the
code (`url.QueryEscape`, `url.Values.Encode`, `url.ParseQuery`,
`strings.Replace/Split/Join`, `sort.Strings`, `crypto/hmac` + `crypto/sha256`,
`encoding/base64`) are embedded as executable definitions mirroring their
documented behaviour; effectful primitives (`url.Parse` failure, the HTTP
client, `io.ReadAll`, `xml.Unmarshal`, the clock) are passed in as explicit
function parameters.
-/

/-- A Go string: its sequence of bytes. -/
abbrev GoStr := List Nat

/-- A Go `error` value, abstract. -/
abbrev GoErr := Nat

/-- Bytes of an ASCII Lean string literal (all literals used are ASCII). -/
def str (s : String) : GoStr := s.data.map Char.toNat

/-- All elements are genuine byte values. -/
def IsBytes (l : GoStr) : Prop := ∀ b ∈ l, b < 256

instance (l : GoStr) : Decidable (IsBytes l) := by unfold IsBytes; infer_instance

/-! ## Byte-wise string comparison (Go `sort.Strings` order) -/

/-- Byte-wise `≤` on strings, as Go's string comparison. -/
def strLe : GoStr → GoStr → Bool
  | [], _ => true
  | _ :: _, [] => false
  | a :: s, b :: t => if a < b then true else if b < a then false else strLe s t

/-- The ordering relation used for sorting query tokens. -/
def strLeP (s t : GoStr) : Prop := strLe s t = true

instance : DecidableRel strLeP := fun s t => by unfold strLeP; infer_instance

theorem strLe_refl : ∀ s : GoStr, strLe s s = true
  | [] => rfl
  | a :: s => by simp [strLe, strLe_refl s]

theorem strLe_total : ∀ s t : GoStr, strLe s t = true ∨ strLe t s = true
  | [], _ => Or.inl rfl
  | _ :: _, [] => Or.inr rfl
  | a :: s, b :: t => by
    rcases Nat.lt_trichotomy a b with h | h | h
    · exact Or.inl (by simp [strLe, h])
    · subst h
      rcases strLe_total s t with hst | hts
      · exact Or.inl (by simp [strLe, hst])
      · exact Or.inr (by simp [strLe, hts])
    · exact Or.inr (by simp [strLe, h])

theorem strLe_antisymm : ∀ s t : GoStr, strLe s t = true → strLe t s = true → s = t
  | [], [], _, _ => rfl
  | [], _ :: _, _, h => by simp [strLe] at h
  | _ :: _, [], h, _ => by simp [strLe] at h
  | a :: s, b :: t, h1, h2 => by
    rcases Nat.lt_trichotomy a b with h | h | h
    · simp [strLe, h, Nat.lt_asymm h] at h2
    · subst h
      simp only [strLe, Nat.lt_irrefl, if_false] at h1 h2
      exact congrArg₂ (· :: ·) rfl (strLe_antisymm s t h1 h2)
    · simp [strLe, h, Nat.lt_asymm h] at h1

theorem strLe_trans : ∀ s t u : GoStr,
    strLe s t = true → strLe t u = true → strLe s u = true
  | [], _, _, _, _ => rfl
  | _ :: _, [], _, h, _ => by simp [strLe] at h
  | _ :: _, _ :: _, [], _, h => by simp [strLe] at h
  | a :: s, b :: t, c :: u, h1, h2 => by
    rcases Nat.lt_trichotomy a b with hab | hab | hab
    · rcases Nat.lt_trichotomy b c with hbc | hbc | hbc
      · simp [strLe, Nat.lt_trans hab hbc]
      · subst hbc; simp [strLe, hab]
      · simp [strLe, hbc, Nat.lt_asymm hbc] at h2
    · subst hab
      rcases Nat.lt_trichotomy a c with hbc | hbc | hbc
      · simp [strLe, hbc]
      · subst hbc
        simp only [strLe, Nat.lt_irrefl, if_false] at h1 h2 ⊢
        exact strLe_trans s t u h1 h2
      · simp [strLe, hbc, Nat.lt_asymm hbc] at h2
    · simp [strLe, hab, Nat.lt_asymm hab] at h1

instance : IsTotal GoStr strLeP := ⟨fun s t => strLe_total s t⟩

instance : IsTrans GoStr strLeP := ⟨fun s t u => strLe_trans s t u⟩

instance : IsAntisymm GoStr strLeP := ⟨fun s t => strLe_antisymm s t⟩

instance : IsRefl GoStr strLeP := ⟨fun s => strLe_refl s⟩

/-- Go's `sort.Strings`: ascending byte-wise order.  The sorted permutation of
a list is unique for a total, transitive, antisymmetric order, so any correct
sorting algorithm is embedded by `insertionSort`. -/
def sortStrings (l : List GoStr) : List GoStr := List.insertionSort strLeP l

/-! ## Splitting and joining on a separator byte (`strings.Split` / `strings.Join`) -/

/-- `strings.Split s sep` for a single-byte separator. -/
def splitOnByte (sep : Nat) : GoStr → List GoStr
  | [] => [[]]
  | c :: rest =>
    if c = sep then [] :: splitOnByte sep rest
    else
      match splitOnByte sep rest with
      | [] => [[c]]
      | t :: ts => (c :: t) :: ts

/-- `strings.Join parts sep` for a single-byte separator. -/
def joinByte (sep : Nat) : List GoStr → GoStr
  | [] => []
  | [t] => t
  | t :: ts => t ++ sep :: joinByte sep ts

/-- `strings.Replace s old new -1` where `old` is a single byte. -/
def replaceByte (b : Nat) (new : GoStr) (s : GoStr) : GoStr :=
  (s.map fun c => if c = b then new else [c]).flatten

/-- `strings.Cut s sep` for a single-byte separator: (before, after, found). -/
def cutByte (sep : Nat) : GoStr → GoStr × GoStr × Bool
  | [] => ([], [], false)
  | c :: rest =>
    if c = sep then ([], rest, true)
    else
      match cutByte sep rest with
      | (before, after, f) => (c :: before, after, f)

/-! ## Percent escaping (`net/url` `QueryEscape` / `QueryUnescape`) -/

/-- Go `net/url` unreserved bytes for query components: alphanumerics and
`-`, `_`, `.`, `~` are not escaped (see `shouldEscape` with
`encodeQueryComponent`). -/
def unreservedByte (b : Nat) : Bool :=
  (97 ≤ b && b ≤ 122) || (65 ≤ b && b ≤ 90) || (48 ≤ b && b ≤ 57) ||
    b = 45 || b = 95 || b = 46 || b = 126

/-- Upper-case hexadecimal digit byte, as Go's `"0123456789ABCDEF"` table. -/
def hexUpper (n : Nat) : Nat := if n < 10 then 48 + n else 55 + n

/-- Escape a single byte as `QueryEscape` does: unreserved bytes pass
through, space becomes `+`, everything else becomes `%XX`. -/
def escByte (b : Nat) : GoStr :=
  if unreservedByte b then [b]
  else if b = 32 then [43]
  else [37, hexUpper (b / 16), hexUpper (b % 16)]

/-- Go `url.QueryEscape`. -/
def queryEscape (s : GoStr) : GoStr := (s.map escByte).flatten

/-- Lower- or upper-case hexadecimal digit (Go `ishex`). -/
def isHexByte (b : Nat) : Bool :=
  (48 ≤ b && b ≤ 57) || (97 ≤ b && b ≤ 102) || (65 ≤ b && b ≤ 70)

/-- Hex digit value (Go `unhex`). -/
def unhex (b : Nat) : Nat :=
  if 48 ≤ b && b ≤ 57 then b - 48
  else if 97 ≤ b && b ≤ 102 then b - 97 + 10
  else if 65 ≤ b && b ≤ 70 then b - 65 + 10
  else 0

/-- The `error` produced by Go `url.EscapeError` (abstract value). -/
def errEscape : GoErr := 2

/-- Go `url.QueryUnescape`: `%XX` decodes (malformed escapes fail),
`+` decodes to space, all other bytes pass through. -/
def unescapeQuery : GoStr → Except GoErr GoStr
  | [] => .ok []
  | c :: rest =>
    if c = 37 then
      match rest with
      | a :: b :: rest2 =>
        if isHexByte a && isHexByte b then
          (unescapeQuery rest2).map fun t => (unhex a * 16 + unhex b) :: t
        else .error errEscape
      | _ => .error errEscape
    else if c = 43 then (unescapeQuery rest).map fun t => 32 :: t
    else (unescapeQuery rest).map fun t => c :: t

/-! ## `url.Values` -/

/-- Go `url.Values`: a map from key to list of values, modelled as an
association list with unique keys (map iteration-order questions are handled
by quantifying over permutations of caller parameter lists). -/
abbrev Values := List (GoStr × List GoStr)

/-- The keys of a `url.Values`. -/
def Values.keys (vs : Values) : List GoStr := vs.map Prod.fst

/-- Map lookup `v[key]` (as an `Option` to distinguish absence). -/
def Values.get : Values → GoStr → Option (List GoStr)
  | [], _ => none
  | (k0, vs0) :: rest, k => if k0 = k then some vs0 else Values.get rest k

/-- Go `Values.Add`: append one value to the key's list. -/
def Values.add : Values → GoStr → GoStr → Values
  | [], k, v => [(k, [v])]
  | (k0, vs0) :: rest, k, v =>
    if k0 = k then (k0, vs0 ++ [v]) :: rest
    else (k0, vs0) :: Values.add rest k v

/-- Go `Values.Set`: replace the key's list with a single value. -/
def Values.set : Values → GoStr → GoStr → Values
  | [], k, v => [(k, [v])]
  | (k0, vs0) :: rest, k, v =>
    if k0 = k then (k0, [v]) :: rest
    else (k0, vs0) :: Values.set rest k v

/-- The `key=value` pair tokens that `Encode` writes for one key. -/
def Values.tokensFor (vs : Values) (k : GoStr) : List GoStr :=
  ((Values.get vs k).getD []).map fun v => queryEscape k ++ 61 :: queryEscape v

/-- Go `url.Values.Encode`: keys sorted with `sort.Strings`, each value of a
key written as `QueryEscape(k)=QueryEscape(v)`, all pairs joined by `&`. -/
def Values.encode (vs : Values) : GoStr :=
  joinByte 38 ((sortStrings (Values.keys vs)).map (Values.tokensFor vs)).flatten

/-- The `error` produced by Go `url.ParseQuery` for a semicolon (abstract). -/
def errSemicolon : GoErr := 3

/-- One iteration of the loop in Go `url.parseQuery`: reject pieces holding a
semicolon (overwriting any previous error, as the Go code does), skip empty
pieces, cut on `=`, unescape key and value (keeping only the first unescape
error), and `Add` the binding. -/
def parseQueryStep (acc : Values × Option GoErr) (piece : GoStr) :
    Values × Option GoErr :=
  if 59 ∈ piece then (acc.1, some errSemicolon)
  else if piece = [] then acc
  else
    let c := cutByte 61 piece
    match unescapeQuery c.1 with
    | .error e1 => (acc.1, if acc.2 = none then some e1 else acc.2)
    | .ok key =>
      match unescapeQuery c.2.1 with
      | .error e1 => (acc.1, if acc.2 = none then some e1 else acc.2)
      | .ok value => (Values.add acc.1 key value, acc.2)

/-- Go `url.ParseQuery`: iterate `strings.Cut` on `&` over the query (the
pieces are exactly `strings.Split(query, "&")`, with empty pieces skipped),
returning the accumulated map and the error, if any. -/
def parseQuery (q : GoStr) : Values × Option GoErr :=
  (splitOnByte 38 q).foldl parseQueryStep ([], none)

/-! ## `crypto/sha256`, `crypto/hmac`, `encoding/base64` -/

/-- Truncate to a 32-bit word. -/
def w32 (n : Nat) : Nat := n % 4294967296

/-- 32-bit modular addition. -/
def add32 (a b : Nat) : Nat := w32 (a + b)

/-- 32-bit right rotation by `k`. -/
def rotr32 (k n : Nat) : Nat := w32 (n / 2 ^ k + n % 2 ^ k * 2 ^ (32 - k))

/-- Logical right shift by `k`. -/
def shr32 (k n : Nat) : Nat := n / 2 ^ k

/-- SHA-256 round constants (decimal). -/
def sha256K : List Nat :=
  [1116352408, 1899447441, 3049323471, 3921009573,
   961987163, 1508970993, 2453635748, 2870763221,
   3624381080, 310598401, 607225278, 1426881987,
   1925078388, 2162078206, 2614888103, 3248222580,
   3835390401, 4022224774, 264347078, 604807628,
   770255983, 1249150122, 1555081692, 1996064986,
   2554220882, 2821834349, 2952996808, 3210313671,
   3336571891, 3584528711, 113926993, 338241895,
   666307205, 773529912, 1294757372, 1396182291,
   1695183700, 1986661051, 2177026350, 2456956037,
   2730485921, 2820302411, 3259730800, 3345764771,
   3516065817, 3600352804, 4094571909, 275423344,
   430227734, 506948616, 659060556, 883997877,
   958139571, 1322822218, 1537002063, 1747873779,
   1955562222, 2024104815, 2227730452, 2361852424,
   2428436474, 2756734187, 3204031479, 3329325298]

/-- SHA-256 initial hash state (decimal). -/
def sha256H0 : List Nat :=
  [1779033703, 3144134277, 1013904242,
   2773480762, 1359893119, 2600822924,
   528734635, 1541459225]

/-- Group bytes into big-endian 32-bit words. -/
def bytesToWords : GoStr → List Nat
  | b0 :: b1 :: b2 :: b3 :: rest =>
    (b0 * 16777216 + b1 * 65536 + b2 * 256 + b3) :: bytesToWords rest
  | _ => []

/-- Big-endian bytes of a 32-bit word. -/
def be32 (n : Nat) : GoStr :=
  [n / 16777216 % 256, n / 65536 % 256, n / 256 % 256, n % 256]

/-- Big-endian bytes of a 64-bit length. -/
def be64 (n : Nat) : GoStr :=
  [n / 2 ^ 56 % 256, n / 2 ^ 48 % 256, n / 2 ^ 40 % 256, n / 2 ^ 32 % 256,
   n / 2 ^ 24 % 256, n / 2 ^ 16 % 256, n / 2 ^ 8 % 256, n % 256]

/-- SHA-256 message-schedule σ0. -/
def ssig0 (x : Nat) : Nat := rotr32 7 x ^^^ rotr32 18 x ^^^ shr32 3 x

/-- SHA-256 message-schedule σ1. -/
def ssig1 (x : Nat) : Nat := rotr32 17 x ^^^ rotr32 19 x ^^^ shr32 10 x

/-- SHA-256 compression Σ0. -/
def bsig0 (x : Nat) : Nat := rotr32 2 x ^^^ rotr32 13 x ^^^ rotr32 22 x

/-- SHA-256 compression Σ1. -/
def bsig1 (x : Nat) : Nat := rotr32 6 x ^^^ rotr32 11 x ^^^ rotr32 25 x

/-- SHA-256 `Ch`. -/
def chFn (x y z : Nat) : Nat := (x &&& y) ^^^ ((x ^^^ 4294967295) &&& z)

/-- SHA-256 `Maj`. -/
def majFn (x y z : Nat) : Nat := (x &&& y) ^^^ (x &&& z) ^^^ (y &&& z)

/-- Extend the 16 block words to 64 schedule words (append `n` more). -/
def schedExtend (ws : List Nat) : Nat → List Nat
  | 0 => ws
  | n + 1 =>
    let t := ws.length
    let newW := add32 (add32 (ssig1 ((ws.getD (t - 2) 0)))
      (ws.getD (t - 7) 0)) (add32 (ssig0 (ws.getD (t - 15) 0)) (ws.getD (t - 16) 0))
    schedExtend (ws ++ [newW]) n

/-- One SHA-256 compression round. -/
def compressStep (st : List Nat) (kw : Nat × Nat) : List Nat :=
  match st with
  | [a, b, c, d, e, f, g, h] =>
    let t1 := add32 h (add32 (bsig1 e) (add32 (chFn e f g) (add32 kw.1 kw.2)))
    let t2 := add32 (bsig0 a) (majFn a b c)
    [add32 t1 t2, a, b, c, add32 d t1, e, f, g]
  | _ => st

/-- Process one 64-byte block. -/
def sha256Block (H : List Nat) (block : GoStr) : List Nat :=
  let ws := schedExtend (bytesToWords block) 48
  let st := (sha256K.zip ws).foldl compressStep H
  (H.zip st).map fun p => add32 p.1 p.2

/-- Cut a padded message into 64-byte blocks (fuel-driven, structurally
recursive so that concrete evaluation reduces in the kernel). -/
def chunks64Aux : Nat → GoStr → List GoStr
  | 0, _ => []
  | _, [] => []
  | fuel + 1, l => l.take 64 :: chunks64Aux fuel (l.drop 64)

/-- Cut a message into 64-byte blocks. -/
def chunks64 (l : GoStr) : List GoStr := chunks64Aux (l.length + 1) l

/-- SHA-256 padding: `0x80`, zeros to 56 mod 64, then the 64-bit bit length. -/
def sha256Pad (msg : GoStr) : GoStr :=
  msg ++ 128 :: List.replicate ((119 - msg.length % 64) % 64) 0 ++
    be64 (8 * msg.length)

/-- SHA-256 of a byte string. -/
def sha256 (msg : GoStr) : GoStr :=
  (((chunks64 (sha256Pad msg)).foldl sha256Block sha256H0).map be32).flatten

/-- HMAC-SHA256 (`crypto/hmac` with `sha256.New`): pad or hash the key to the
64-byte block size, then nested hashing with the `0x36`/`0x5c` pads. -/
def hmacSHA256 (key msg : GoStr) : GoStr :=
  let k0 := if 64 < key.length then sha256 key else key
  let k1 := k0 ++ List.replicate (64 - k0.length) 0
  sha256 ((k1.map fun b => b ^^^ 92) ++ sha256 ((k1.map fun b => b ^^^ 54) ++ msg))

/-- One output byte of `encoding/base64` `StdEncoding`'s alphabet. -/
def b64char (n : Nat) : Nat :=
  if n < 26 then 65 + n
  else if n < 52 then 97 + (n - 26)
  else if n < 62 then 48 + (n - 52)
  else if n = 62 then 43 else 47

/-- Go `base64.StdEncoding.EncodeToString`, with `=` padding. -/
def base64Encode : GoStr → GoStr
  | [] => []
  | [b1] => [b64char (b1 / 4), b64char (b1 % 4 * 16), 61, 61]
  | [b1, b2] => [b64char (b1 / 4), b64char (b1 % 4 * 16 + b2 / 16),
                 b64char (b2 % 16 * 4), 61]
  | b1 :: b2 :: b3 :: rest =>
    b64char (b1 / 4) :: b64char (b1 % 4 * 16 + b2 / 16) ::
      b64char (b2 % 16 * 4 + b3 / 64) :: b64char (b3 % 64) :: base64Encode rest

/-! ## The `amazon` package -/

/-- The fields of `net/url`'s `URL` used by this code. -/
structure URL where
  scheme : GoStr
  host : GoStr
  path : GoStr
  rawQuery : GoStr
deriving DecidableEq

/-- `url.URL.String()` for the URLs this code builds (non-empty scheme and
host, path starting with `/`, no user/fragment/opaque parts): the query is
appended after `?` only when non-empty. -/
def urlString (u : URL) : GoStr :=
  u.scheme ++ str "://" ++ u.host ++ u.path ++
    (if u.rawQuery = [] then [] else 63 :: u.rawQuery)

/-- `amazon.AmazonProductAPI` (the `*http.Client` field is abstracted into
the transport parameter of `genSignAndFetch`). -/
structure AmazonProductAPI where
  accessKey : GoStr
  secretKey : GoStr
  associateTag : GoStr
  host : GoStr

/-- The fixed parameters added by `generateAmazonURL` before the caller's
parameters are merged in. -/
def fixedValues (api : AmazonProductAPI) (operation : GoStr) : Values :=
  Values.add (Values.add (Values.add (Values.add (Values.add []
    (str "Operation") operation)
    (str "Service") (str "AWSECommerceService"))
    (str "AWSAccessKeyId") api.accessKey)
    (str "Version") (str "2013-08-01"))
    (str "AssociateTag") api.associateTag

/-- The merged parameter mapping of `generateAmazonURL`: the caller's
parameters are written over the fixed ones with `Values.Set`, in map
iteration order (modelled by the order of the association list). -/
def mergedValues (api : AmazonProductAPI) (operation : GoStr)
    (parameters : List (GoStr × GoStr)) : Values :=
  parameters.foldl (fun vs kv => Values.set vs kv.1 kv.2)
    (fixedValues api operation)

/-- `amazon.generateAmazonURL`.  `url.Parse(api.Host)` is abstracted by the
`urlParse` parameter, of which only success or failure is used: the code
overwrites the parsed URL's host, scheme, path and raw query. -/
def generateAmazonURL (urlParse : GoStr → Except GoErr Unit)
    (api : AmazonProductAPI) (operation : GoStr)
    (parameters : List (GoStr × GoStr)) : Except GoErr URL :=
  match urlParse api.host with
  | .error e => .error e
  | .ok _ =>
    .ok { scheme := str "http", host := api.host, path := str "/onca/xml",
          rawQuery := Values.encode (mergedValues api operation parameters) }

/-- `amazon.setTimestamp`: re-parse the query, set `Timestamp` to the current
clock value (`now`, in RFC3339), re-encode.  When `url.ParseQuery` fails the
URL is returned unchanged alongside the error (the Go function returns before
mutating). -/
def setTimestamp (now : GoStr) (origURL : URL) : Except GoErr URL :=
  match parseQuery origURL.rawQuery with
  | (_, some e) => .error e
  | (values, none) =>
    .ok { origURL with
          rawQuery := Values.encode (Values.set values (str "Timestamp") now) }

/-- The first escaping pass of `signAmazonURL`: `strings.Replace` of `,` by
`%2C` and then of `:` by `%3A` over the raw query. -/
def escapeRawQuery (q : GoStr) : GoStr :=
  replaceByte 58 (str "%3A") (replaceByte 44 (str "%2C") q)

/-- The sorted canonical query string of `signAmazonURL`: escape, split on
`&`, `sort.Strings`, join with `&`. -/
def canonicalQuery (q : GoStr) : GoStr :=
  joinByte 38 (sortStrings (splitOnByte 38 (escapeRawQuery q)))

/-- The string-to-sign of `signAmazonURL`:
`fmt.Sprintf("GET\n%s\n%s\n%s", origURL.Host, origURL.Path, sortedParams)`. -/
def stringToSign (u : URL) : GoStr :=
  str "GET" ++ 10 :: u.host ++ 10 :: u.path ++ 10 :: canonicalQuery u.rawQuery

/-- The signature value of `signAmazonURL`: HMAC-SHA256 of the string-to-sign
under the secret key, base64-encoded, then `url.QueryEscape`d. -/
def signatureValue (secretKey : GoStr) (u : URL) : GoStr :=
  queryEscape (base64Encode (hmacSHA256 secretKey (stringToSign u)))

/-- `amazon.signAmazonURL`.  The `hasher.Write` call of `crypto/hmac` is
abstracted by `hasherWrite` (the `hash.Hash` contract says `Write` never
returns an error, but the code's error branch is kept).  Returns the mutated
URL together with `origURL.String()`. -/
def signAmazonURL (hasherWrite : GoStr → Option GoErr) (origURL : URL)
    (api : AmazonProductAPI) : Except GoErr (URL × GoStr) :=
  match hasherWrite (stringToSign origURL) with
  | some e => .error e
  | none =>
    let newParams := canonicalQuery origURL.rawQuery ++
      str "&Signature=" ++ signatureValue api.secretKey origURL
    let u := { origURL with rawQuery := newParams }
    .ok (u, urlString u)

/-- `hasher.Write` as documented for `hash.Hash`: it never fails. -/
def hashWriteOk : GoStr → Option GoErr := fun _ => none

/-- A host string that `url.Parse` accepts. -/
def urlParseOk : GoStr → Except GoErr Unit := fun _ => .ok ()

/-- `amazon.AmazonProductAPI.genSignAndFetch`.  The HTTP transport is the
`get` parameter (`api.Client.Get`) and `readAll` (`ioutil.ReadAll` on the
response body).  Note the source discards `setTimestamp`'s return value: on a
(hypothetical) parse error the unmodified URL is used and the error is
dropped. -/
def genSignAndFetch (urlParse : GoStr → Except GoErr Unit)
    (hasherWrite : GoStr → Option GoErr)
    (get : GoStr → Except GoErr GoStr) (readAll : GoStr → Except GoErr GoStr)
    (now : GoStr) (api : AmazonProductAPI) (operation : GoStr)
    (parameters : List (GoStr × GoStr)) : Except GoErr GoStr :=
  match generateAmazonURL urlParse api operation parameters with
  | .error e => .error e
  | .ok genURL =>
    let genURL2 := match setTimestamp now genURL with
      | .error _ => genURL
      | .ok u => u
    match signAmazonURL hasherWrite genURL2 api with
    | .error e => .error e
    | .ok (_, signedurl) =>
      match get signedurl with
      | .error e => .error e
      | .ok resp =>
        match readAll resp with
        | .error e => .error e
        | .ok body => .ok body

/-! ### Response schema (the fields reached by the verified claims; the
remaining response-only fields of the Go structs carry no behaviour) -/

/-- `amazon.Image`. -/
structure Image where
  url : GoStr
  height : Nat
  width : Nat
deriving DecidableEq

/-- `amazon.ItemAttributes` (the fields the `books` wrapper reads). -/
structure ItemAttributes where
  author : GoStr
  title : GoStr
  ean : GoStr
deriving DecidableEq

instance : Inhabited ItemAttributes := ⟨⟨[], [], []⟩⟩

/-- `amazon.Item` (the fields the `books` wrapper reads; `ItemAttributes`
and the images are pointers in Go, hence `Option`). -/
structure Item where
  asin : GoStr
  detailPageURL : GoStr
  itemAttributes : Option ItemAttributes
  largeImage : Option Image
deriving DecidableEq

/-- `amazon.ItemSearchRequest`. -/
structure ItemSearchRequest where
  keywords : GoStr
  searchIndex : GoStr
  responseGroup : GoStr
deriving DecidableEq

/-- The `Items.Request` element of `amazon.ItemSearchResponse`. -/
structure ISRequest where
  isValid : Bool
  itemSearchRequest : ItemSearchRequest
deriving DecidableEq

/-- The `Items` element of `amazon.ItemSearchResponse`. -/
structure ISItems where
  request : ISRequest
  items : List Item
  totalResult : Int
  totalPages : Int
deriving DecidableEq

/-- `amazon.ItemSearchResponse`. -/
structure ItemSearchResponse where
  items : ISItems
deriving DecidableEq

/-- `strconv.FormatInt(int64(n), 10)`: decimal digits (fuel-driven so that
concrete evaluation reduces in the kernel). -/
def natDigitsAux : Nat → Nat → GoStr
  | 0, _ => []
  | _, 0 => []
  | fuel + 1, n => natDigitsAux fuel (n / 10) ++ [48 + n % 10]

/-- Decimal representation of a natural number. -/
def natDigits (n : Nat) : GoStr :=
  if n = 0 then [48] else natDigitsAux (n + 1) n

/-- `strconv.FormatInt` for an `Int`. -/
def formatInt (n : Int) : GoStr :=
  if n < 0 then 45 :: natDigits n.natAbs else natDigits n.toNat

/-- The caller-supplied parameter mapping built by `Search` (a Go map
literal; its iteration order is arbitrary, see the determinism theorem). -/
def searchParams (keywords : GoStr) (index : GoStr) (page : Int) :
    List (GoStr × GoStr) :=
  [(str "Keywords", queryEscape keywords),
   (str "ResponseGroup", str "Images,ItemAttributes,Small,EditorialReview"),
   (str "ItemPage", formatInt page),
   (str "SearchIndex", index)]

/-- `amazon.AmazonProductAPI.Search`: build the parameter map, call
`genSignAndFetch` with operation `ItemSearch`, then `xml.Unmarshal`
(abstracted by `unmarshal`) the body. -/
def amazonSearch (urlParse : GoStr → Except GoErr Unit)
    (hasherWrite : GoStr → Option GoErr)
    (get : GoStr → Except GoErr GoStr) (readAll : GoStr → Except GoErr GoStr)
    (now : GoStr) (unmarshal : GoStr → Except GoErr ItemSearchResponse)
    (api : AmazonProductAPI) (index : GoStr) (keywords : GoStr) (page : Int) :
    Except GoErr ItemSearchResponse :=
  match genSignAndFetch urlParse hasherWrite get readAll now api
      (str "ItemSearch") (searchParams keywords index page) with
  | .error e => .error e
  | .ok result =>
    match unmarshal result with
    | .error e => .error e
    | .ok isr => .ok isr

/-! ### The `books` package -/

/-- `books.BookImage`. -/
structure BookImage where
  url : GoStr
  width : Int
  height : Int
deriving DecidableEq

/-- `books.Book`. -/
structure Book where
  title : GoStr
  isbn : GoStr
  url : GoStr
  largeImage : Option BookImage
deriving DecidableEq

/-- The per-item body of the loop in `books.API.Search`.  (The Go code
dereferences `item.ItemAttributes` unconditionally; a `nil` pointer there
would panic, modelled by the zero value.) -/
def bookOfItem (item : Item) : Book :=
  { title := (item.itemAttributes.getD default).title,
    isbn := (item.itemAttributes.getD default).ean,
    url := item.detailPageURL,
    largeImage := item.largeImage.map fun img =>
      { url := img.url, width := (img.width : Int), height := (img.height : Int) } }

/-- `books.API.Search`: delegate to the amazon client with index `"Books"`,
then map the result items (starting from the empty slice `[]Book{}`). -/
def booksSearch (urlParse : GoStr → Except GoErr Unit)
    (hasherWrite : GoStr → Option GoErr)
    (get : GoStr → Except GoErr GoStr) (readAll : GoStr → Except GoErr GoStr)
    (now : GoStr) (unmarshal : GoStr → Except GoErr ItemSearchResponse)
    (api : AmazonProductAPI) (keywords : GoStr) (page : Int) :
    Except GoErr (List Book) :=
  match amazonSearch urlParse hasherWrite get readAll now unmarshal api
      (str "Books") keywords page with
  | .error e => .error e
  | .ok r => .ok (r.items.items.map bookOfItem)

/-! ## Derived notions used to state the claims -/

/-- Lookup in a Go map given as an association list (the caller's
`map[string]string`; a Go map has unique keys). -/
def lookupPairs : List (GoStr × GoStr) → GoStr → Option GoStr
  | [], _ => none
  | (k0, v0) :: rest, k => if k0 = k then some v0 else lookupPairs rest k

/-- A single-valued parameter map as a `url.Values`. -/
def pairsValues (ps : List (GoStr × GoStr)) : Values :=
  ps.map fun kv => (kv.1, [kv.2])

/-- The encoded `key=value` token of one binding. -/
def tokenOfPair (kv : GoStr × GoStr) : GoStr :=
  queryEscape kv.1 ++ 61 :: queryEscape kv.2

/-- Byte-validity of a `url.Values`. -/
def ValuesBytes (vs : Values) : Prop :=
  ∀ kv ∈ vs, IsBytes kv.1 ∧ ∀ v ∈ kv.2, IsBytes v

/-- Byte-validity of a caller parameter map. -/
def PairsBytes (ps : List (GoStr × GoStr)) : Prop :=
  ∀ kv ∈ ps, IsBytes kv.1 ∧ IsBytes kv.2

instance (ps : List (GoStr × GoStr)) : Decidable (PairsBytes ps) := by
  unfold PairsBytes; infer_instance

/-- A concrete client configuration used to witness the theorems. -/
def apiW : AmazonProductAPI :=
  { accessKey := str "AKID", secretKey := str "SECRET",
    associateTag := str "tag-20", host := str "webservices.amazon.com" }

/-- The URL that `generateAmazonURL` produces for `apiW` with operation
`ItemSearch` and no caller parameters. -/
def uW : URL :=
  { scheme := str "http", host := apiW.host, path := str "/onca/xml",
    rawQuery := Values.encode (mergedValues apiW (str "ItemSearch") []) }

/-- A concrete empty, invalid search response used to witness the theorems. -/
def isrW : ItemSearchResponse :=
  ItemSearchResponse.mk (ISItems.mk (ISRequest.mk false (ItemSearchRequest.mk [] [] [])) [] 0 0)

/-! ## Lemmas about splitting, joining and replacing -/

theorem splitOnByte_ne_nil (sep : Nat) : ∀ l : GoStr, splitOnByte sep l ≠ []
  | [] => by simp [splitOnByte]
  | c :: rest => by
    by_cases h : c = sep
    · simp [splitOnByte, h]
    · simp only [splitOnByte, if_neg h]
      rcases hrec : splitOnByte sep rest with _ | ⟨t, ts⟩ <;> simp

theorem splitOnByte_append_sep (sep : Nat) :
    ∀ x y : GoStr, splitOnByte sep (x ++ sep :: y) =
      splitOnByte sep x ++ splitOnByte sep y
  | [], y => by simp [splitOnByte]
  | c :: x, y => by
    by_cases h : c = sep
    · simp [splitOnByte, h, splitOnByte_append_sep sep x y]
    · rcases hrec : splitOnByte sep x with _ | ⟨t, ts⟩
      · exact absurd hrec (splitOnByte_ne_nil sep x)
      · simp only [List.cons_append, splitOnByte, if_neg h, List.append_eq]
        rw [splitOnByte_append_sep sep x y, hrec]
        simp

theorem splitOnByte_of_not_mem {sep : Nat} :
    ∀ {l : GoStr}, sep ∉ l → splitOnByte sep l = [l]
  | [], _ => rfl
  | c :: rest, h => by
    have hc : c ≠ sep := fun hc => h (hc ▸ List.mem_cons_self c rest)
    have hrest : sep ∉ rest := fun hr => h (List.mem_cons_of_mem c hr)
    simp [splitOnByte, hc, splitOnByte_of_not_mem hrest]

theorem splitOnByte_joinByte {sep : Nat} :
    ∀ {ts : List GoStr}, ts ≠ [] → (∀ t ∈ ts, sep ∉ t) →
      splitOnByte sep (joinByte sep ts) = ts
  | [], h, _ => absurd rfl h
  | [t], _, hfree => by
    simp [joinByte, splitOnByte_of_not_mem (hfree t (List.mem_singleton_self t))]
  | t :: t2 :: ts, _, hfree => by
    have h1 : sep ∉ t := hfree t (List.mem_cons_self _ _)
    have h2 : ∀ u ∈ t2 :: ts, sep ∉ u := fun u hu =>
      hfree u (List.mem_cons_of_mem t hu)
    calc splitOnByte sep (joinByte sep (t :: t2 :: ts))
        = splitOnByte sep (t ++ sep :: joinByte sep (t2 :: ts)) := rfl
      _ = splitOnByte sep t ++ splitOnByte sep (joinByte sep (t2 :: ts)) :=
          splitOnByte_append_sep sep _ _
      _ = [t] ++ (t2 :: ts) := by
          rw [splitOnByte_of_not_mem h1,
            splitOnByte_joinByte (List.cons_ne_nil t2 ts) h2]
      _ = t :: t2 :: ts := rfl

theorem mem_of_mem_joinByte {sep b : Nat} :
    ∀ {ts : List GoStr}, b ∈ joinByte sep ts → b = sep ∨ ∃ t ∈ ts, b ∈ t
  | [], h => by simp [joinByte] at h
  | [t], h => Or.inr ⟨t, List.mem_singleton_self t, h⟩
  | t :: t2 :: ts, h => by
    rcases List.mem_append.1 h with h | h
    · exact Or.inr ⟨t, List.mem_cons_self _ _, h⟩
    · rcases List.mem_cons.1 h with h | h
      · exact Or.inl h
      · rcases mem_of_mem_joinByte h with h | ⟨u, hu, hb⟩
        · exact Or.inl h
        · exact Or.inr ⟨u, List.mem_cons_of_mem t hu, hb⟩

theorem infix_joinByte {sep : Nat} {t : GoStr} :
    ∀ {ts : List GoStr}, t ∈ ts → t <:+: joinByte sep ts
  | [], h => absurd h (List.not_mem_nil t)
  | [u], h => by
    rcases List.mem_singleton.1 h with rfl
    exact List.infix_rfl
  | u :: u2 :: ts, h => by
    rcases List.mem_cons.1 h with rfl | h
    · exact ⟨[], sep :: joinByte sep (u2 :: ts), by simp [joinByte]⟩
    · have ih : t <:+: joinByte sep (u2 :: ts) := infix_joinByte h
      have hstep : joinByte sep (u2 :: ts) <:+: joinByte sep (u :: u2 :: ts) :=
        ⟨u ++ [sep], [], by simp [joinByte]⟩
      exact ih.trans hstep

theorem not_mem_splitOnByte_self {sep : Nat} :
    ∀ {l : GoStr} {t : GoStr}, t ∈ splitOnByte sep l → sep ∉ t
  | [], t, h => by
    simp only [splitOnByte, List.mem_singleton] at h
    simp [h]
  | c :: rest, t, h => by
    by_cases hc : c = sep
    · rw [splitOnByte, if_pos hc] at h
      rcases List.mem_cons.1 h with rfl | h
      · simp
      · exact not_mem_splitOnByte_self h
    · rw [splitOnByte, if_neg hc] at h
      rcases hrec : splitOnByte sep rest with _ | ⟨u, us⟩
      · exact absurd hrec (splitOnByte_ne_nil sep rest)
      · rw [hrec] at h
        rcases List.mem_cons.1 h with rfl | h
        · intro hmem
          rcases List.mem_cons.1 hmem with rfl | hmem
          · exact hc rfl
          · exact not_mem_splitOnByte_self (hrec ▸ List.mem_cons_self u us) hmem
        · exact not_mem_splitOnByte_self (hrec ▸ List.mem_cons_of_mem u h)

theorem mem_of_mem_splitOnByte {sep b : Nat} :
    ∀ {l t : GoStr}, t ∈ splitOnByte sep l → b ∈ t → b ∈ l
  | [], t, h, hb => by
    simp only [splitOnByte, List.mem_singleton] at h
    subst h
    exact absurd hb (List.not_mem_nil b)
  | c :: rest, t, h, hb => by
    by_cases hc : c = sep
    · rw [splitOnByte, if_pos hc] at h
      rcases List.mem_cons.1 h with rfl | h
      · exact absurd hb (List.not_mem_nil b)
      · exact List.mem_cons_of_mem c (mem_of_mem_splitOnByte h hb)
    · rw [splitOnByte, if_neg hc] at h
      rcases hrec : splitOnByte sep rest with _ | ⟨u, us⟩
      · exact absurd hrec (splitOnByte_ne_nil sep rest)
      · rw [hrec] at h
        rcases List.mem_cons.1 h with rfl | h
        · rcases List.mem_cons.1 hb with rfl | hb
          · exact List.mem_cons_self b rest
          · exact List.mem_cons_of_mem c
              (mem_of_mem_splitOnByte (hrec ▸ List.mem_cons_self u us) hb)
        · exact List.mem_cons_of_mem c
            (mem_of_mem_splitOnByte (hrec ▸ List.mem_cons_of_mem u h) hb)

theorem replaceByte_of_not_mem {b : Nat} {new : GoStr} :
    ∀ {s : GoStr}, b ∉ s → replaceByte b new s = s
  | [], _ => rfl
  | c :: rest, h => by
    have hc : c ≠ b := fun hc => h (hc ▸ List.mem_cons_self c rest)
    have hrest : b ∉ rest := fun hr => h (List.mem_cons_of_mem c hr)
    have hstep : replaceByte b new (c :: rest) = [c] ++ replaceByte b new rest := by
      simp [replaceByte, hc]
    rw [hstep, replaceByte_of_not_mem hrest]
    rfl

theorem mem_replaceByte {b c : Nat} {new : GoStr} :
    ∀ {s : GoStr}, c ∈ replaceByte b new s → c ∈ new ∨ (c ∈ s ∧ c ≠ b)
  | [], h => by simp [replaceByte] at h
  | d :: rest, h => by
    simp only [replaceByte, List.map_cons, List.flatten_cons] at h
    rcases List.mem_append.1 h with h | h
    · by_cases hd : d = b
      · rw [if_pos hd] at h
        exact Or.inl h
      · rw [if_neg hd] at h
        rcases List.mem_singleton.1 h with rfl
        exact Or.inr ⟨List.mem_cons_self c rest, hd⟩
    · rcases mem_replaceByte (s := rest) h with h | ⟨h1, h2⟩
      · exact Or.inl h
      · exact Or.inr ⟨List.mem_cons_of_mem d h1, h2⟩

theorem not_mem_replaceByte_self {b : Nat} {new : GoStr} (hb : b ∉ new)
    (s : GoStr) : b ∉ replaceByte b new s := by
  intro h
  rcases mem_replaceByte h with h | ⟨_, h⟩
  · exact hb h
  · exact h rfl

/-! ## Lemmas about percent escaping -/

theorem unreserved_facts {c : Nat} (h : unreservedByte c = true) :
    c ≠ 37 ∧ c ≠ 43 ∧ c ≠ 38 ∧ c ≠ 44 ∧ c ≠ 58 ∧ c ≠ 59 ∧ c ≠ 61 := by
  unfold unreservedByte at h
  simp only [Bool.or_eq_true, Bool.and_eq_true, decide_eq_true_eq] at h
  omega

theorem hexUpper_facts (n : Nat) :
    hexUpper n ≠ 37 ∧ hexUpper n ≠ 43 ∧ hexUpper n ≠ 38 ∧ hexUpper n ≠ 44 ∧
      hexUpper n ≠ 58 ∧ hexUpper n ≠ 59 ∧ hexUpper n ≠ 61 := by
  unfold hexUpper
  split <;> omega

/-- No byte of an escaped byte is one of `&`, `,`, `:`, `;`, `=`. -/
theorem escByte_avoid {b c : Nat} (h : c ∈ escByte b) :
    c ≠ 38 ∧ c ≠ 44 ∧ c ≠ 58 ∧ c ≠ 59 ∧ c ≠ 61 := by
  unfold escByte at h
  split at h
  · rcases List.mem_singleton.1 h with rfl
    rename_i hr
    have := unreserved_facts hr
    tauto
  · split at h
    · rcases List.mem_singleton.1 h with rfl
      omega
    · rcases List.mem_cons.1 h with rfl | h
      · omega
      · rcases List.mem_cons.1 h with rfl | h
        · have := hexUpper_facts (b / 16)
          tauto
        · rcases List.mem_singleton.1 h with rfl
          have := hexUpper_facts (b % 16)
          tauto

theorem escByte_ne_nil (b : Nat) : escByte b ≠ [] := by
  unfold escByte
  split
  · simp
  · split <;> simp

theorem queryEscape_nil : queryEscape [] = [] := rfl

theorem queryEscape_cons (b : Nat) (s : GoStr) :
    queryEscape (b :: s) = escByte b ++ queryEscape s := by
  simp [queryEscape]

theorem queryEscape_append (s t : GoStr) :
    queryEscape (s ++ t) = queryEscape s ++ queryEscape t := by
  simp [queryEscape]

/-- No byte of a query-escaped string is one of `&`, `,`, `:`, `;`, `=`. -/
theorem queryEscape_avoid {s : GoStr} {c : Nat} (h : c ∈ queryEscape s) :
    c ≠ 38 ∧ c ≠ 44 ∧ c ≠ 58 ∧ c ≠ 59 ∧ c ≠ 61 := by
  unfold queryEscape at h
  rcases List.mem_flatten.1 h with ⟨l, hl, hc⟩
  rcases List.mem_map.1 hl with ⟨b, _, rfl⟩
  exact escByte_avoid hc

/-- The escape of any byte of `s` occurs inside `queryEscape s`. -/
theorem escByte_infix_queryEscape {s : GoStr} {b : Nat} (h : b ∈ s) :
    escByte b <:+: queryEscape s := by
  rcases List.append_of_mem h with ⟨u, v, rfl⟩
  refine ⟨queryEscape u, queryEscape v, ?_⟩
  rw [queryEscape_append u (b :: v), queryEscape_cons b v, List.append_assoc]

theorem queryEscape_of_unreserved :
    ∀ {s : GoStr}, (∀ b ∈ s, unreservedByte b = true) → queryEscape s = s
  | [], _ => rfl
  | b :: s, h => by
    rw [queryEscape_cons, queryEscape_of_unreserved fun c hc => h c (List.mem_cons_of_mem b hc)]
    rw [escByte, if_pos (h b (List.mem_cons_self b s))]
    rfl

theorem hexUpper_inj {m n : Nat} (h : hexUpper m = hexUpper n) : m = n := by
  unfold hexUpper at h
  split at h <;> split at h <;> omega

/-- The byte escapes form a prefix code: equal concatenations starting with
two escapes force the escaped bytes (and the tails) to agree. -/
theorem escByte_append_inj {a b : Nat} {x y : GoStr}
    (h : escByte a ++ x = escByte b ++ y) : a = b ∧ x = y := by
  unfold escByte at h
  split at h <;> rename_i ha
  · split at h <;> rename_i hb
    · simp only [List.cons_append, List.nil_append, List.cons.injEq] at h
      exact ⟨h.1, h.2⟩
    · split at h <;> rename_i hb2
      · simp only [List.cons_append, List.nil_append, List.cons.injEq] at h
        exact absurd h.1 (unreserved_facts ha).2.1
      · simp only [List.cons_append, List.nil_append, List.cons.injEq] at h
        exact absurd h.1 (unreserved_facts ha).1
  · split at h <;> rename_i ha2
    · split at h <;> rename_i hb
      · simp only [List.cons_append, List.nil_append, List.cons.injEq] at h
        exact absurd h.1.symm (unreserved_facts hb).2.1
      · split at h <;> rename_i hb2
        · simp only [List.cons_append, List.nil_append, List.cons.injEq] at h
          exact ⟨ha2.trans hb2.symm, h.2⟩
        · simp only [List.cons_append, List.nil_append, List.cons.injEq] at h
          omega
    · split at h <;> rename_i hb
      · simp only [List.cons_append, List.nil_append, List.cons.injEq] at h
        exact absurd h.1.symm (unreserved_facts hb).1
      · split at h <;> rename_i hb2
        · simp only [List.cons_append, List.nil_append, List.cons.injEq] at h
          omega
        · simp only [List.cons_append, List.nil_append, List.cons.injEq] at h
          obtain ⟨-, h1, h2, h3⟩ := h
          refine ⟨?_, h3⟩
          have e1 : a / 16 = b / 16 := hexUpper_inj h1
          have e2 : a % 16 = b % 16 := hexUpper_inj h2
          omega

theorem queryEscape_inj : ∀ {s t : GoStr}, queryEscape s = queryEscape t → s = t
  | [], [], _ => rfl
  | [], b :: t, h => by
    rw [queryEscape_nil, queryEscape_cons] at h
    exact absurd h.symm (by simp [escByte_ne_nil b])
  | a :: s, [], h => by
    rw [queryEscape_nil, queryEscape_cons] at h
    exact absurd h (by simp [escByte_ne_nil a])
  | a :: s, b :: t, h => by
    rw [queryEscape_cons, queryEscape_cons] at h
    obtain ⟨rfl, h2⟩ := escByte_append_inj h
    rw [queryEscape_inj h2]

theorem unescapeQuery_cons_other {c : Nat} (rest : GoStr) (h37 : c ≠ 37)
    (h43 : c ≠ 43) :
    unescapeQuery (c :: rest) = (unescapeQuery rest).map fun t => c :: t := by
  rw [unescapeQuery.eq_def]
  simp only []
  rw [if_neg h37, if_neg h43]

theorem isHexByte_hexUpper {n : Nat} (h : n < 16) : isHexByte (hexUpper n) = true := by
  interval_cases n <;> rfl

theorem unhex_hexUpper {n : Nat} (h : n < 16) : unhex (hexUpper n) = n := by
  interval_cases n <;> rfl

/-- `QueryUnescape` inverts `QueryEscape` on byte strings. -/
theorem unescapeQuery_queryEscape :
    ∀ {s : GoStr}, IsBytes s → unescapeQuery (queryEscape s) = .ok s
  | [], _ => rfl
  | b :: s, h => by
    have hb : b < 256 := h b (List.mem_cons_self b s)
    have hs : IsBytes s := fun c hc => h c (List.mem_cons_of_mem b hc)
    rw [queryEscape_cons]
    unfold escByte
    split <;> rename_i hun
    · have hf := unreserved_facts hun
      rw [List.cons_append, List.nil_append,
        unescapeQuery_cons_other _ hf.1 hf.2.1, unescapeQuery_queryEscape hs]
      rfl
    · split <;> rename_i h32
      · subst h32
        rw [List.cons_append, List.nil_append]
        rw [unescapeQuery.eq_def]
        simp only []
        rw [if_neg (by omega), if_pos trivial, unescapeQuery_queryEscape hs]
        rfl
      · have hd : b / 16 < 16 := by omega
        have hm : b % 16 < 16 := by omega
        show unescapeQuery (37 :: hexUpper (b / 16) :: hexUpper (b % 16) ::
          queryEscape s) = .ok (b :: s)
        simp only [unescapeQuery]
        have hb16 : b / 16 * 16 + b % 16 = b := by omega
        simp [isHexByte_hexUpper hd, isHexByte_hexUpper hm,
          unescapeQuery_queryEscape hs, unhex_hexUpper hd, unhex_hexUpper hm,
          hb16, Except.map]

/-! ## Lemmas about `url.Values` -/

theorem Values.get_set_self :
    ∀ (vs : Values) (k v : GoStr), Values.get (Values.set vs k v) k = some [v]
  | [], k, v => by simp [Values.set, Values.get]
  | (k0, vs0) :: rest, k, v => by
    by_cases h : k0 = k
    · simp [Values.set, Values.get, h]
    · simp [Values.set, Values.get, h, Values.get_set_self rest k v]

theorem Values.get_set_ne :
    ∀ (vs : Values) (k v k2 : GoStr), k2 ≠ k →
      Values.get (Values.set vs k v) k2 = Values.get vs k2
  | [], k, v, k2, h => by
    have hne : ¬k = k2 := fun hh => h hh.symm
    simp [Values.set, Values.get, hne]
  | (k0, vs0) :: rest, k, v, k2, h => by
    by_cases h0 : k0 = k
    · subst h0
      have hne : k0 ≠ k2 := fun hh => h hh.symm
      simp [Values.set, Values.get, hne]
    · by_cases h2 : k0 = k2
      · subst h2
        simp [Values.set, Values.get, h0]
      · simp [Values.set, Values.get, h0, h2, Values.get_set_ne rest k v k2 h]

theorem Values.mem_keys_set :
    ∀ (vs : Values) (k v k2 : GoStr),
      k2 ∈ Values.keys (Values.set vs k v) ↔ k2 ∈ Values.keys vs ∨ k2 = k
  | [], k, v, k2 => by simp [Values.set, Values.keys]
  | (k0, vs0) :: rest, k, v, k2 => by
    by_cases h0 : k0 = k
    · subst h0
      simp [Values.set, Values.keys]
      tauto
    · simp only [Values.set, if_neg h0, Values.keys, List.map_cons,
        List.mem_cons]
      rw [show (rest.map Prod.fst = Values.keys rest) from rfl,
        show ((Values.set rest k v).map Prod.fst =
          Values.keys (Values.set rest k v)) from rfl,
        Values.mem_keys_set rest k v k2]
      tauto

theorem Values.nodup_keys_set :
    ∀ (vs : Values) (k v : GoStr), (Values.keys vs).Nodup →
      (Values.keys (Values.set vs k v)).Nodup
  | [], k, v, _ => by simp [Values.set, Values.keys]
  | (k0, vs0) :: rest, k, v, h => by
    rw [Values.keys, List.map_cons] at h
    rcases List.nodup_cons.1 h with ⟨h1, h2⟩
    by_cases h0 : k0 = k
    · subst h0
      simpa [Values.set, Values.keys] using List.nodup_cons.2 ⟨h1, h2⟩
    · rw [Values.set, if_neg h0, Values.keys, List.map_cons]
      refine List.nodup_cons.2 ⟨?_, Values.nodup_keys_set rest k v h2⟩
      intro hmem
      rcases (Values.mem_keys_set rest k v k0).1 hmem with hmem | hmem
      · exact h1 hmem
      · exact h0 hmem

theorem Values.get_eq_none :
    ∀ (vs : Values) (k : GoStr), Values.get vs k = none ↔ k ∉ Values.keys vs
  | [], k => by simp [Values.get, Values.keys]
  | (k0, vs0) :: rest, k => by
    by_cases h0 : k0 = k
    · simp [Values.get, Values.keys, h0]
    · have hne : ¬k = k0 := fun hh => h0 hh.symm
      simp [Values.get, Values.keys, h0, Values.get_eq_none rest k, hne]

/-- Folding `Values.Set` over bindings whose keys avoid `k` leaves `k`'s
entry unchanged. -/
theorem Values.get_foldl_not_mem :
    ∀ (ps : List (GoStr × GoStr)) (vs : Values) (k : GoStr),
      k ∉ ps.map Prod.fst →
      Values.get (ps.foldl (fun a kv => Values.set a kv.1 kv.2) vs) k =
        Values.get vs k
  | [], vs, k, _ => rfl
  | (k0, v0) :: rest, vs, k, h => by
    have h1 : k ≠ k0 := fun hh => h (by
      rw [List.map_cons]; exact List.mem_cons.2 (Or.inl hh))
    have h2 : k ∉ rest.map Prod.fst := fun hh => h (by
      rw [List.map_cons]; exact List.mem_cons.2 (Or.inr hh))
    rw [List.foldl_cons,
      Values.get_foldl_not_mem rest (Values.set vs k0 v0) k h2,
      Values.get_set_ne vs k0 v0 k h1]

/-- The merge law of `Values.Set` folded over a caller map with unique keys:
caller bindings win, everything else keeps the accumulator's entry. -/
theorem Values.get_foldl_set :
    ∀ (ps : List (GoStr × GoStr)) (vs : Values) (k : GoStr),
      (ps.map Prod.fst).Nodup →
      Values.get (ps.foldl (fun a kv => Values.set a kv.1 kv.2) vs) k =
        (match lookupPairs ps k with
         | some v => some [v]
         | none => Values.get vs k)
  | [], vs, k, _ => rfl
  | (k0, v0) :: rest, vs, k, h => by
    rw [List.map_cons] at h
    rcases List.nodup_cons.1 h with ⟨h1, h2⟩
    rw [List.foldl_cons]
    by_cases hk : k0 = k
    · subst hk
      rw [Values.get_foldl_not_mem rest (Values.set vs k0 v0) k0 h1,
        Values.get_set_self vs k0 v0]
      simp [lookupPairs]
    · rw [Values.get_foldl_set rest (Values.set vs k0 v0) k h2]
      rcases hl : lookupPairs rest k with _ | v
      · simp [lookupPairs, hk, hl, Values.get_set_ne vs k0 v0 k
          fun hh => hk hh.symm]
      · simp [lookupPairs, hk, hl]

theorem Values.mem_keys_foldl :
    ∀ (ps : List (GoStr × GoStr)) (vs : Values) (k2 : GoStr),
      k2 ∈ Values.keys (ps.foldl (fun a kv => Values.set a kv.1 kv.2) vs) ↔
        k2 ∈ Values.keys vs ∨ k2 ∈ ps.map Prod.fst
  | [], vs, k2 => by simp
  | (k0, v0) :: rest, vs, k2 => by
    rw [List.foldl_cons, Values.mem_keys_foldl rest (Values.set vs k0 v0) k2,
      Values.mem_keys_set vs k0 v0 k2, List.map_cons, List.mem_cons]
    tauto

theorem Values.nodup_keys_foldl :
    ∀ (ps : List (GoStr × GoStr)) (vs : Values), (Values.keys vs).Nodup →
      (Values.keys (ps.foldl (fun a kv => Values.set a kv.1 kv.2) vs)).Nodup
  | [], _, h => h
  | (k0, v0) :: rest, vs, h =>
    Values.nodup_keys_foldl rest (Values.set vs k0 v0)
      (Values.nodup_keys_set vs k0 v0 h)

theorem keys_fixedValues (api : AmazonProductAPI) (operation : GoStr) :
    Values.keys (fixedValues api operation) =
      [str "Operation", str "Service", str "AWSAccessKeyId", str "Version",
       str "AssociateTag"] := by
  rfl

theorem nodup_keys_fixedValues (api : AmazonProductAPI) (operation : GoStr) :
    (Values.keys (fixedValues api operation)).Nodup := by
  rw [keys_fixedValues]
  decide

theorem nodup_keys_mergedValues (api : AmazonProductAPI) (operation : GoStr)
    (ps : List (GoStr × GoStr)) :
    (Values.keys (mergedValues api operation ps)).Nodup :=
  Values.nodup_keys_foldl ps (fixedValues api operation)
    (nodup_keys_fixedValues api operation)

theorem mem_keys_mergedValues (api : AmazonProductAPI) (operation : GoStr)
    (ps : List (GoStr × GoStr)) (k : GoStr) :
    k ∈ Values.keys (mergedValues api operation ps) ↔
      k ∈ Values.keys (fixedValues api operation) ∨ k ∈ ps.map Prod.fst :=
  Values.mem_keys_foldl ps (fixedValues api operation) k

theorem keys_mergedValues_ne_nil (api : AmazonProductAPI) (operation : GoStr)
    (ps : List (GoStr × GoStr)) :
    Values.keys (mergedValues api operation ps) ≠ [] := by
  intro h
  have : str "Operation" ∈ Values.keys (mergedValues api operation ps) := by
    rw [mem_keys_mergedValues, keys_fixedValues]
    simp
  rw [h] at this
  exact List.not_mem_nil _ this

/-! ## Lemmas about map lookup and single-valued maps -/

theorem lookupPairs_eq_none :
    ∀ {ps : List (GoStr × GoStr)} {k : GoStr},
      lookupPairs ps k = none ↔ k ∉ ps.map Prod.fst
  | [], k => by simp [lookupPairs]
  | (k0, v0) :: rest, k => by
    by_cases h0 : k0 = k
    · simp [lookupPairs, h0]
    · have hne : ¬k = k0 := fun hh => h0 hh.symm
      simp [lookupPairs, h0, hne,
        show lookupPairs rest k = none ↔ k ∉ rest.map Prod.fst from
          lookupPairs_eq_none]

theorem mem_of_lookupPairs :
    ∀ {ps : List (GoStr × GoStr)} {k v : GoStr},
      lookupPairs ps k = some v → (k, v) ∈ ps
  | [], k, v, h => by simp [lookupPairs] at h
  | (k0, v0) :: rest, k, v, h => by
    by_cases h0 : k0 = k
    · subst h0
      rw [lookupPairs, if_pos rfl, Option.some.injEq] at h
      subst h
      exact List.mem_cons_self _ _
    · rw [lookupPairs, if_neg h0] at h
      exact List.mem_cons_of_mem _ (mem_of_lookupPairs h)

theorem lookupPairs_of_mem :
    ∀ {ps : List (GoStr × GoStr)} {k v : GoStr},
      (k, v) ∈ ps → (ps.map Prod.fst).Nodup → lookupPairs ps k = some v
  | [], k, v, h, _ => absurd h (List.not_mem_nil _)
  | (k0, v0) :: rest, k, v, h, hnd => by
    rw [List.map_cons] at hnd
    rcases List.nodup_cons.1 hnd with ⟨hh, ht⟩
    rcases List.mem_cons.1 h with heq | hmem
    · rcases Prod.mk.injEq .. ▸ heq with ⟨rfl, rfl⟩
      rw [lookupPairs, if_pos rfl]
    · by_cases h0 : k0 = k
      · subst h0
        exact absurd (List.mem_map_of_mem Prod.fst hmem) hh
      · rw [lookupPairs, if_neg h0]
        exact lookupPairs_of_mem hmem ht

theorem lookupPairs_perm {ps1 ps2 : List (GoStr × GoStr)}
    (hperm : ps1.Perm ps2) (hnd : (ps1.map Prod.fst).Nodup) (k : GoStr) :
    lookupPairs ps1 k = lookupPairs ps2 k := by
  have hnd2 : (ps2.map Prod.fst).Nodup := (hperm.map Prod.fst).nodup_iff.1 hnd
  rcases h1 : lookupPairs ps1 k with _ | v
  · rcases h2 : lookupPairs ps2 k with _ | v
    · rfl
    · have := mem_of_lookupPairs h2
      have hmem := (hperm.symm.mem_iff).1 this
      rw [lookupPairs_of_mem hmem hnd] at h1
      exact absurd h1 (by simp)
  · have := mem_of_lookupPairs h1
    have hmem := hperm.mem_iff.1 this
    rw [lookupPairs_of_mem hmem hnd2]

theorem keys_pairsValues (ps : List (GoStr × GoStr)) :
    Values.keys (pairsValues ps) = ps.map Prod.fst := by
  simp [Values.keys, pairsValues]

theorem get_pairsValues :
    ∀ (ps : List (GoStr × GoStr)) (k : GoStr),
      Values.get (pairsValues ps) k = (lookupPairs ps k).map fun v => [v]
  | [], k => rfl
  | (k0, v0) :: rest, k => by
    by_cases h0 : k0 = k
    · simp [pairsValues, Values.get, lookupPairs, h0]
    · simp [pairsValues, Values.get, lookupPairs, h0, ← get_pairsValues rest k]

theorem flatten_map_singleton {α β : Type} (f : α → β) :
    ∀ l : List α, (l.map fun a => [f a]).flatten = l.map f
  | [] => rfl
  | a :: l => by simp [flatten_map_singleton f l]

theorem append_cons_inj {x : Nat} :
    ∀ {a c b d : GoStr}, x ∉ a → x ∉ c → a ++ x :: b = c ++ x :: d →
      a = c ∧ b = d
  | [], [], b, d, _, _, h => ⟨rfl, (List.cons.injEq .. ▸ h).2⟩
  | [], e :: c', b, d, _, hc, h => by
    rw [List.nil_append, List.cons_append, List.cons.injEq] at h
    exact absurd (h.1 ▸ List.mem_cons_self x c') hc
  | e :: a', [], b, d, ha, _, h => by
    rw [List.nil_append, List.cons_append, List.cons.injEq] at h
    exact absurd (h.1 ▸ List.mem_cons_self x a') ha
  | e :: a', e2 :: c', b, d, ha, hc, h => by
    rw [List.cons_append, List.cons_append, List.cons.injEq] at h
    obtain ⟨rfl, h2⟩ := h
    have ha' : x ∉ a' := fun hh => ha (List.mem_cons_of_mem e hh)
    have hc' : x ∉ c' := fun hh => hc (List.mem_cons_of_mem e hh)
    obtain ⟨rfl, rfl⟩ := append_cons_inj ha' hc' h2
    exact ⟨rfl, rfl⟩

theorem cutByte_append {x : Nat} :
    ∀ {a : GoStr} (b : GoStr), x ∉ a → cutByte x (a ++ x :: b) = (a, b, true)
  | [], b, _ => by simp [cutByte]
  | e :: a', b, ha => by
    have he : e ≠ x := fun hh => ha (hh ▸ List.mem_cons_self e a')
    have ha' : x ∉ a' := fun hh => ha (List.mem_cons_of_mem e hh)
    simp [cutByte, he, cutByte_append b ha']

/-! ## Lemmas about `Values.encode` and the canonical query -/

theorem mem_tokensFor {vs : Values} {k t : GoStr}
    (h : t ∈ Values.tokensFor vs k) :
    ∃ v, t = queryEscape k ++ 61 :: queryEscape v := by
  unfold Values.tokensFor at h
  rcases List.mem_map.1 h with ⟨v, _, rfl⟩
  exact ⟨v, rfl⟩

theorem mem_encodeTokens {vs : Values} {t : GoStr}
    (h : t ∈ ((sortStrings (Values.keys vs)).map (Values.tokensFor vs)).flatten) :
    ∃ k v, t = queryEscape k ++ 61 :: queryEscape v := by
  rcases List.mem_flatten.1 h with ⟨l, hl, ht⟩
  rcases List.mem_map.1 hl with ⟨k, _, rfl⟩
  rcases mem_tokensFor ht with ⟨v, rfl⟩
  exact ⟨k, v, rfl⟩

theorem token_avoid {k v : GoStr} {c : Nat}
    (h : c ∈ queryEscape k ++ 61 :: queryEscape v) :
    c ≠ 38 ∧ c ≠ 44 ∧ c ≠ 58 ∧ c ≠ 59 := by
  rcases List.mem_append.1 h with h | h
  · have := queryEscape_avoid h
    tauto
  · rcases List.mem_cons.1 h with rfl | h
    · omega
    · have := queryEscape_avoid h
      tauto

theorem encode_avoid {vs : Values} {c : Nat} (h : c ∈ Values.encode vs) :
    c ≠ 44 ∧ c ≠ 58 ∧ c ≠ 59 := by
  unfold Values.encode at h
  rcases mem_of_mem_joinByte h with rfl | ⟨t, ht, hc⟩
  · omega
  · rcases mem_encodeTokens ht with ⟨k, v, rfl⟩
    have := token_avoid hc
    tauto

theorem escapeRawQuery_eq_self {q : GoStr} (h44 : 44 ∉ q) (h58 : 58 ∉ q) :
    escapeRawQuery q = q := by
  unfold escapeRawQuery
  rw [replaceByte_of_not_mem h44, replaceByte_of_not_mem h58]

theorem escapeRawQuery_encode (vs : Values) :
    escapeRawQuery (Values.encode vs) = Values.encode vs :=
  escapeRawQuery_eq_self (fun h => (encode_avoid h).1 rfl)
    (fun h => (encode_avoid h).2.1 rfl)

theorem splitOn_encode {vs : Values}
    (hne : ((sortStrings (Values.keys vs)).map (Values.tokensFor vs)).flatten ≠ []) :
    splitOnByte 38 (Values.encode vs) =
      ((sortStrings (Values.keys vs)).map (Values.tokensFor vs)).flatten := by
  unfold Values.encode
  refine splitOnByte_joinByte hne fun t ht hc => ?_
  rcases mem_encodeTokens ht with ⟨k, v, rfl⟩
  exact (token_avoid hc).1 rfl

theorem splitOn_canonicalQuery (q : GoStr) :
    splitOnByte 38 (canonicalQuery q) =
      sortStrings (splitOnByte 38 (escapeRawQuery q)) := by
  apply splitOnByte_joinByte
  · intro h
    have hp := List.perm_insertionSort strLeP (splitOnByte 38 (escapeRawQuery q))
    rw [show (List.insertionSort strLeP (splitOnByte 38 (escapeRawQuery q)) =
      sortStrings (splitOnByte 38 (escapeRawQuery q))) from rfl, h] at hp
    exact splitOnByte_ne_nil 38 _ hp.symm.eq_nil
  · intro t ht
    exact not_mem_splitOnByte_self ((List.mem_insertionSort strLeP).1 ht)

/-- The tokens of the canonical query string are sorted (byte-wise,
non-decreasing, compared as whole `key=value` strings). -/
theorem sorted_canonicalTokens (q : GoStr) :
    List.Sorted strLeP (splitOnByte 38 (canonicalQuery q)) := by
  rw [splitOn_canonicalQuery]
  exact List.sorted_insertionSort strLeP _

theorem mem_canonicalQuery {q : GoStr} {c : Nat} (h : c ∈ canonicalQuery q) :
    c = 38 ∨ c ∈ escapeRawQuery q := by
  rcases mem_of_mem_joinByte h with rfl | ⟨t, ht, hc⟩
  · exact Or.inl rfl
  · exact Or.inr (mem_of_mem_splitOnByte
      ((List.mem_insertionSort strLeP).1 ht) hc)

theorem no_raw_comma_colon_canonicalQuery (q : GoStr) :
    44 ∉ canonicalQuery q ∧ 58 ∉ canonicalQuery q := by
  constructor <;> intro h <;> rcases mem_canonicalQuery h with h | h
  · omega
  · unfold escapeRawQuery at h
    rcases mem_replaceByte h with h | ⟨h, _⟩
    · revert h; decide
    · exact not_mem_replaceByte_self (by decide) q h
  · omega
  · exact not_mem_replaceByte_self (by decide) _ h

theorem token_mem_canonicalTokens {vs : Values} {k v : GoStr}
    (hget : Values.get vs k = some [v]) :
    (queryEscape k ++ 61 :: queryEscape v) ∈
      splitOnByte 38 (canonicalQuery (Values.encode vs)) := by
  have hkeys : k ∈ Values.keys vs := by
    by_contra hk
    rw [(Values.get_eq_none vs k).2 hk] at hget
    exact Option.noConfusion hget
  have htok : (queryEscape k ++ 61 :: queryEscape v) ∈
      ((sortStrings (Values.keys vs)).map (Values.tokensFor vs)).flatten := by
    refine List.mem_flatten.2 ⟨Values.tokensFor vs k,
      List.mem_map_of_mem _ ((List.mem_insertionSort strLeP).2 hkeys), ?_⟩
    unfold Values.tokensFor
    rw [hget]
    simp
  rw [splitOn_canonicalQuery, escapeRawQuery_encode,
    splitOn_encode (List.ne_nil_of_mem htok)]
  exact (List.mem_insertionSort strLeP).2 htok

theorem token_infix_canonicalQuery {vs : Values} {k v : GoStr}
    (hget : Values.get vs k = some [v]) :
    (queryEscape k ++ 61 :: queryEscape v) <:+:
      canonicalQuery (Values.encode vs) := by
  have hmem := token_mem_canonicalTokens hget
  rw [splitOn_canonicalQuery] at hmem
  exact infix_joinByte hmem

/-! ## The claims -/

/-- C1: for every URL produced by `generateAmazonURL`, `signAmazonURL` feeds
the MAC exactly the four components `"GET"`, the URL's host, the URL's path,
and the sorted canonical query string (escape, split on `&`, sort, join),
joined by single newline (byte 10) characters in that order. -/
theorem claim_c1 (api : AmazonProductAPI) (operation : GoStr)
    (ps : List (GoStr × GoStr)) (u : URL)
    (_h : generateAmazonURL urlParseOk api operation ps = .ok u) :
    stringToSign u = str "GET" ++ 10 :: u.host ++ 10 :: u.path ++ 10 ::
      joinByte 38 (sortStrings (splitOnByte 38 (escapeRawQuery u.rawQuery))) :=
  rfl

theorem claim_c1_witness :
    generateAmazonURL urlParseOk apiW (str "ItemSearch") [] = .ok uW ∧
      stringToSign uW = str "GET" ++ 10 :: uW.host ++ 10 :: uW.path ++ 10 ::
        joinByte 38 (sortStrings (splitOnByte 38 (escapeRawQuery uW.rawQuery))) :=
  ⟨rfl, claim_c1 apiW (str "ItemSearch") [] uW rfl⟩

/-- C2: for every parameter mapping (and configuration), the `key=value`
tokens of the canonical query string built for signing are in non-decreasing
byte-wise lexicographic order, compared as complete strings. -/
theorem claim_c2 (api : AmazonProductAPI) (operation : GoStr)
    (ps : List (GoStr × GoStr)) :
    List.Sorted strLeP (splitOnByte 38 (canonicalQuery
      (Values.encode (mergedValues api operation ps)))) :=
  sorted_canonicalTokens _

/-- C4: for every input URL and secret key, the final query produced by
`signAmazonURL` is exactly the sorted canonical query string followed by one
appended `Signature` parameter whose value is the percent-escaped base64
encoding of the HMAC-SHA256 of the string-to-sign under the secret key, and
that `Signature` parameter is the last one of the query.  (`hasher.Write`
never fails per the `hash.Hash` contract, embedded as `hashWriteOk`.) -/
theorem claim_c4 (u : URL) (api : AmazonProductAPI) :
    signAmazonURL hashWriteOk u api = .ok ({ u with rawQuery := canonicalQuery u.rawQuery ++ str "&Signature=" ++ signatureValue api.secretKey u }, urlString { u with rawQuery := canonicalQuery u.rawQuery ++ str "&Signature=" ++ signatureValue api.secretKey u }) ∧
    signatureValue api.secretKey u = queryEscape (base64Encode (hmacSHA256 api.secretKey (stringToSign u))) ∧
    (splitOnByte 38 (canonicalQuery u.rawQuery ++ str "&Signature=" ++ signatureValue api.secretKey u)).getLast? = some (str "Signature=" ++ signatureValue api.secretKey u) := by
  refine ⟨rfl, rfl, ?_⟩
  have hsig : (38 : Nat) ∉ str "Signature=" ++ signatureValue api.secretKey u := by
    intro h
    rcases List.mem_append.1 h with h | h
    · revert h; decide
    · exact (queryEscape_avoid h).1 rfl
  have h1 : canonicalQuery u.rawQuery ++ str "&Signature=" ++ signatureValue api.secretKey u = canonicalQuery u.rawQuery ++ 38 :: (str "Signature=" ++ signatureValue api.secretKey u) := by
    rw [show str "&Signature=" = 38 :: str "Signature=" from rfl]
    simp
  rw [h1, splitOnByte_append_sep, splitOnByte_of_not_mem hsig]
  simp

/-- C5: the merged mapping built by `generateAmazonURL` maps every key to the
caller-supplied value when the caller map binds it (caller keys overwrite
fixed keys on collision, `Operation` included), and otherwise to the fixed
mapping's entry. -/
theorem claim_c5 (api : AmazonProductAPI) (operation : GoStr)
    (ps : List (GoStr × GoStr)) (k : GoStr)
    (hnd : (ps.map Prod.fst).Nodup) :
    Values.get (mergedValues api operation ps) k =
      (match lookupPairs ps k with
       | some v => some [v]
       | none => Values.get (fixedValues api operation) k) :=
  Values.get_foldl_set ps (fixedValues api operation) k hnd

theorem claim_c5_witness :
    (([(str "Operation", str "Override"), (str "Extra", str "1")].map
        (Prod.fst (α := GoStr) (β := GoStr))).Nodup) ∧
    Values.get (mergedValues apiW (str "ItemSearch")
        [(str "Operation", str "Override"), (str "Extra", str "1")])
        (str "Operation") =
      (match lookupPairs [(str "Operation", str "Override"),
          (str "Extra", str "1")] (str "Operation") with
       | some v => some [v]
       | none => Values.get (fixedValues apiW (str "ItemSearch"))
           (str "Operation")) :=
  ⟨by decide, claim_c5 apiW (str "ItemSearch")
    [(str "Operation", str "Override"), (str "Extra", str "1")]
    (str "Operation") (by decide)⟩

/-- C3: for every parameter mapping (with the unique keys of a Go map) and
every binding whose key or value contains a comma (byte 44) or a colon
(byte 58), the canonical query string used for signing contains the
percent-encoded form `%2C` (respectively `%3A`) and never contains a raw
comma or colon. -/
theorem claim_c3 (api : AmazonProductAPI) (operation : GoStr)
    (ps : List (GoStr × GoStr)) (k v : GoStr)
    (hnd : (ps.map Prod.fst).Nodup) (hmem : (k, v) ∈ ps) :
    ((44 ∈ k ∨ 44 ∈ v) → str "%2C" <:+:
      canonicalQuery (Values.encode (mergedValues api operation ps))) ∧
    ((58 ∈ k ∨ 58 ∈ v) → str "%3A" <:+:
      canonicalQuery (Values.encode (mergedValues api operation ps))) ∧
    44 ∉ canonicalQuery (Values.encode (mergedValues api operation ps)) ∧
    58 ∉ canonicalQuery (Values.encode (mergedValues api operation ps)) := by
  have hget : Values.get (mergedValues api operation ps) k = some [v] := by
    unfold mergedValues
    rw [Values.get_foldl_set ps (fixedValues api operation) k hnd,
      lookupPairs_of_mem hmem hnd]
  have htok := token_infix_canonicalQuery hget
  have hkey : queryEscape k <:+: queryEscape k ++ 61 :: queryEscape v :=
    ⟨[], 61 :: queryEscape v, by simp⟩
  have hval : queryEscape v <:+: queryEscape k ++ 61 :: queryEscape v :=
    ⟨queryEscape k ++ [61], [], by simp⟩
  refine ⟨?_, ?_, (no_raw_comma_colon_canonicalQuery _).1,
    (no_raw_comma_colon_canonicalQuery _).2⟩
  · rintro (h | h)
    · exact ((show str "%2C" = escByte 44 from rfl) ▸
        escByte_infix_queryEscape h).trans (hkey.trans htok)
    · exact ((show str "%2C" = escByte 44 from rfl) ▸
        escByte_infix_queryEscape h).trans (hval.trans htok)
  · rintro (h | h)
    · exact ((show str "%3A" = escByte 58 from rfl) ▸
        escByte_infix_queryEscape h).trans (hkey.trans htok)
    · exact ((show str "%3A" = escByte 58 from rfl) ▸
        escByte_infix_queryEscape h).trans (hval.trans htok)

theorem claim_c3_witness :
    (([(str "A", str "x,y:z")].map (Prod.fst (α := GoStr) (β := GoStr))).Nodup) ∧
    (str "A", str "x,y:z") ∈ [(str "A", str "x,y:z")] ∧
    (((44 ∈ str "A" ∨ 44 ∈ str "x,y:z") → str "%2C" <:+:
      canonicalQuery (Values.encode (mergedValues apiW (str "ItemSearch")
        [(str "A", str "x,y:z")]))) ∧
    ((58 ∈ str "A" ∨ 58 ∈ str "x,y:z") → str "%3A" <:+:
      canonicalQuery (Values.encode (mergedValues apiW (str "ItemSearch")
        [(str "A", str "x,y:z")]))) ∧
    44 ∉ canonicalQuery (Values.encode (mergedValues apiW (str "ItemSearch")
      [(str "A", str "x,y:z")])) ∧
    58 ∉ canonicalQuery (Values.encode (mergedValues apiW (str "ItemSearch")
      [(str "A", str "x,y:z")]))) :=
  ⟨by decide, by decide,
    claim_c3 apiW (str "ItemSearch") [(str "A", str "x,y:z")]
      (str "A") (str "x,y:z") (by decide) (by decide)⟩

/-- C6: canonicalization is deterministic and independent of the iteration
order of the caller's parameter map: for any two iteration orders (modelled
as permutations of the binding list, with the unique keys of a Go map), the
canonical query string built from `generateAmazonURL`'s encoding followed by
`signAmazonURL`'s escape-sort-join is identical. -/
theorem claim_c6 (api : AmazonProductAPI) (operation : GoStr)
    (ps1 ps2 : List (GoStr × GoStr)) (hperm : ps1.Perm ps2)
    (hnd : (ps1.map Prod.fst).Nodup) :
    canonicalQuery (Values.encode (mergedValues api operation ps1)) =
      canonicalQuery (Values.encode (mergedValues api operation ps2)) := by
  have hget : ∀ k, Values.get (mergedValues api operation ps1) k =
      Values.get (mergedValues api operation ps2) k := by
    intro k
    have hnd2 : (ps2.map Prod.fst).Nodup :=
      (hperm.map Prod.fst).nodup_iff.1 hnd
    unfold mergedValues
    rw [Values.get_foldl_set ps1 _ k hnd, Values.get_foldl_set ps2 _ k hnd2,
      lookupPairs_perm hperm hnd k]
  have hkeys : (Values.keys (mergedValues api operation ps1)).Perm
      (Values.keys (mergedValues api operation ps2)) := by
    rw [List.perm_ext_iff_of_nodup (nodup_keys_mergedValues api operation ps1)
      (nodup_keys_mergedValues api operation ps2)]
    intro k
    rw [mem_keys_mergedValues, mem_keys_mergedValues,
      (hperm.map Prod.fst).mem_iff]
  have hsorted : sortStrings (Values.keys (mergedValues api operation ps1)) =
      sortStrings (Values.keys (mergedValues api operation ps2)) := by
    refine List.eq_of_perm_of_sorted ?_ (List.sorted_insertionSort strLeP _)
      (List.sorted_insertionSort strLeP _)
    exact (List.perm_insertionSort strLeP _).trans
      (hkeys.trans (List.perm_insertionSort strLeP _).symm)
  have htf : Values.tokensFor (mergedValues api operation ps1) =
      Values.tokensFor (mergedValues api operation ps2) := by
    funext k
    unfold Values.tokensFor
    rw [hget k]
  have henc : Values.encode (mergedValues api operation ps1) =
      Values.encode (mergedValues api operation ps2) := by
    unfold Values.encode
    rw [hsorted, htf]
  rw [henc]

theorem claim_c6_witness :
    ([((str "B"), (str "2")), ((str "A"), (str "1"))].Perm
      [((str "A"), (str "1")), ((str "B"), (str "2"))]) ∧
    (([((str "B"), (str "2")), ((str "A"), (str "1"))].map
      (Prod.fst (α := GoStr) (β := GoStr))).Nodup) ∧
    canonicalQuery (Values.encode (mergedValues apiW (str "ItemSearch")
        [((str "B"), (str "2")), ((str "A"), (str "1"))])) =
      canonicalQuery (Values.encode (mergedValues apiW (str "ItemSearch")
        [((str "A"), (str "1")), ((str "B"), (str "2"))])) :=
  ⟨by decide, by decide,
    claim_c6 apiW (str "ItemSearch")
      [((str "B"), (str "2")), ((str "A"), (str "1"))]
      [((str "A"), (str "1")), ((str "B"), (str "2"))] (by decide) (by decide)⟩

/-- C9: when the transport succeeds and the decoder parses the body into a
response whose request-validity flag is false and whose result list is
empty, `Search` returns that response with a nil error, and the `books`
wrapper returns the empty book list with a nil error — not an error value. -/
theorem claim_c9 (api : AmazonProductAPI) (kw : GoStr) (page : Int)
    (now body : GoStr) (unmarshal : GoStr → Except GoErr ItemSearchResponse)
    (isr : ItemSearchResponse)
    (hdec : unmarshal body = .ok isr)
    (_hvalid : isr.items.request.isValid = false)
    (hempty : isr.items.items = []) :
    amazonSearch urlParseOk hashWriteOk (fun _ => .ok body) (fun r => .ok r)
      now unmarshal api (str "Books") kw page = .ok isr ∧
    booksSearch urlParseOk hashWriteOk (fun _ => .ok body) (fun r => .ok r)
      now unmarshal api kw page = .ok [] := by
  have hfetch : genSignAndFetch urlParseOk hashWriteOk (fun _ => .ok body)
      (fun r => .ok r) now api (str "ItemSearch")
      (searchParams kw (str "Books") page) = .ok body := by
    simp only [genSignAndFetch, generateAmazonURL, urlParseOk]
    rcases h2 : setTimestamp now _ with _ | u2 <;>
      simp [signAmazonURL, hashWriteOk]
  constructor
  · simp only [amazonSearch, hfetch, hdec]
  · simp only [booksSearch, amazonSearch, hfetch, hdec, hempty]
    simp

theorem claim_c9_witness :
    ((fun _ : GoStr => (Except.ok isrW : Except GoErr ItemSearchResponse))
        (str "<x/>") = .ok isrW) ∧
    isrW.items.request.isValid = false ∧ isrW.items.items = [] ∧
    amazonSearch urlParseOk hashWriteOk (fun _ => .ok (str "<x/>"))
      (fun r => .ok r) (str "T") (fun _ => .ok isrW) apiW (str "Books")
      (str "go") 1 = .ok isrW ∧
    booksSearch urlParseOk hashWriteOk (fun _ => .ok (str "<x/>"))
      (fun r => .ok r) (str "T") (fun _ => .ok isrW) apiW (str "go") 1 =
      .ok [] :=
  ⟨rfl, rfl, rfl,
    (claim_c9 apiW (str "go") 1 (str "T") (str "<x/>") (fun _ => .ok isrW)
      isrW rfl rfl rfl).1,
    (claim_c9 apiW (str "go") 1 (str "T") (str "<x/>") (fun _ => .ok isrW)
      isrW rfl rfl rfl).2⟩

/-- C10: the keywords are escaped twice — once by `url.QueryEscape` in
`Search`'s parameter map and once by the encoder in `generateAmazonURL` — so
the canonical query contains the token `Keywords=` followed by the doubly
escaped keywords; a space becomes `%2B` and `&` becomes `%2526`, while
keywords made only of unreserved bytes appear verbatim. -/
theorem claim_c10 (api : AmazonProductAPI) (index : GoStr) (page : Int)
    (kw kw2 : GoStr) (hunr : ∀ b ∈ kw2, unreservedByte b = true) :
    (str "Keywords=" ++ queryEscape (queryEscape kw)) ∈
      splitOnByte 38 (canonicalQuery (Values.encode (mergedValues api
        (str "ItemSearch") (searchParams kw index page)))) ∧
    queryEscape (queryEscape (str " ")) = str "%2B" ∧
    queryEscape (queryEscape (str "&")) = str "%2526" ∧
    queryEscape (queryEscape kw2) = kw2 := by
  refine ⟨?_, by decide, by decide, ?_⟩
  · have hnd : ((searchParams kw index page).map Prod.fst).Nodup := by
      show ([str "Keywords", str "ResponseGroup", str "ItemPage",
        str "SearchIndex"] : List GoStr).Nodup
      decide
    have hget : Values.get (mergedValues api (str "ItemSearch")
        (searchParams kw index page)) (str "Keywords") =
        some [queryEscape kw] := by
      unfold mergedValues
      rw [Values.get_foldl_set _ _ _ hnd]
      rfl
    have hmem := token_mem_canonicalTokens hget
    have heq : (str "Keywords=" ++ queryEscape (queryEscape kw)) =
        (queryEscape (str "Keywords") ++ 61 :: queryEscape (queryEscape kw)) := by
      rw [show queryEscape (str "Keywords") = str "Keywords" from rfl]
      rfl
    rw [heq]
    exact hmem
  · rw [queryEscape_of_unreserved hunr, queryEscape_of_unreserved hunr]

theorem claim_c10_witness :
    (∀ b ∈ str "golang", unreservedByte b = true) ∧
    ((str "Keywords=" ++ queryEscape (queryEscape (str "a b"))) ∈
      splitOnByte 38 (canonicalQuery (Values.encode (mergedValues apiW
        (str "ItemSearch") (searchParams (str "a b") (str "Books") 1)))) ∧
    queryEscape (queryEscape (str " ")) = str "%2B" ∧
    queryEscape (queryEscape (str "&")) = str "%2526" ∧
    queryEscape (queryEscape (str "golang")) = str "golang") :=
  ⟨by decide, claim_c10 apiW (str "Books") 1 (str "a b") (str "golang")
    (by decide)⟩

/-! ## Lemmas for error propagation: `ParseQuery` succeeds on encoded queries -/

theorem Values.get_some_mem :
    ∀ {vs : Values} {k : GoStr} {l : List GoStr},
      Values.get vs k = some l → ∃ kv ∈ vs, kv.2 = l
  | [], k, l, h => by simp [Values.get] at h
  | (k0, vs0) :: rest, k, l, h => by
    by_cases h0 : k0 = k
    · rw [Values.get, if_pos h0, Option.some.injEq] at h
      exact ⟨(k0, vs0), List.mem_cons_self _ _, h⟩
    · rw [Values.get, if_neg h0] at h
      rcases Values.get_some_mem h with ⟨kv, hm, he⟩
      exact ⟨kv, List.mem_cons_of_mem _ hm, he⟩

theorem fixedValues_eq (api : AmazonProductAPI) (operation : GoStr) :
    fixedValues api operation =
      [(str "Operation", [operation]),
       (str "Service", [str "AWSECommerceService"]),
       (str "AWSAccessKeyId", [api.accessKey]),
       (str "Version", [str "2013-08-01"]),
       (str "AssociateTag", [api.associateTag])] := rfl

theorem valuesBytes_fixed (api : AmazonProductAPI) (operation : GoStr)
    (hak : IsBytes api.accessKey) (hat : IsBytes api.associateTag)
    (hop : IsBytes operation) : ValuesBytes (fixedValues api operation) := by
  intro kv hkv
  rw [fixedValues_eq] at hkv
  simp only [List.mem_cons, List.not_mem_nil, or_false] at hkv
  rcases hkv with rfl | rfl | rfl | rfl | rfl
  · exact ⟨show IsBytes (str "Operation") by decide, fun w hw => by
      rcases List.mem_singleton.1 hw with rfl; exact hop⟩
  · exact ⟨by decide, fun w hw => by
      rcases List.mem_singleton.1 hw with rfl; decide⟩
  · exact ⟨show IsBytes (str "AWSAccessKeyId") by decide, fun w hw => by
      rcases List.mem_singleton.1 hw with rfl; exact hak⟩
  · exact ⟨by decide, fun w hw => by
      rcases List.mem_singleton.1 hw with rfl; decide⟩
  · exact ⟨show IsBytes (str "AssociateTag") by decide, fun w hw => by
      rcases List.mem_singleton.1 hw with rfl; exact hat⟩

theorem valuesBytes_set :
    ∀ {vs : Values}, ValuesBytes vs → ∀ {k v : GoStr},
      IsBytes k → IsBytes v → ValuesBytes (Values.set vs k v)
  | [], _, k, v, hk, hv => fun kv hkv => by
    rcases List.mem_singleton.1 hkv with rfl
    exact ⟨hk, fun w hw => by rcases List.mem_singleton.1 hw with rfl; exact hv⟩
  | (k0, vs0) :: rest, h, k, v, hk, hv => by
    have hrest : ValuesBytes rest := fun kv hm => h kv (List.mem_cons_of_mem _ hm)
    by_cases h0 : k0 = k
    · intro kv hkv
      rw [Values.set, if_pos h0] at hkv
      rcases List.mem_cons.1 hkv with rfl | hm
      · exact ⟨(h (k0, vs0) (List.mem_cons_self _ _)).1, fun w hw => by
          rcases List.mem_singleton.1 hw with rfl; exact hv⟩
      · exact hrest kv hm
    · intro kv hkv
      rw [Values.set, if_neg h0] at hkv
      rcases List.mem_cons.1 hkv with rfl | hm
      · exact h (k0, vs0) (List.mem_cons_self _ _)
      · exact valuesBytes_set hrest hk hv kv hm

theorem valuesBytes_foldl :
    ∀ {ps : List (GoStr × GoStr)} {vs : Values}, ValuesBytes vs →
      PairsBytes ps →
      ValuesBytes (ps.foldl (fun a kv => Values.set a kv.1 kv.2) vs)
  | [], _, h, _ => h
  | (k0, v0) :: rest, vs, h, hp => by
    rw [List.foldl_cons]
    have h0 := hp (k0, v0) (List.mem_cons_self _ _)
    exact valuesBytes_foldl (valuesBytes_set h h0.1 h0.2)
      fun kv hm => hp kv (List.mem_cons_of_mem _ hm)

theorem valuesBytes_merged (api : AmazonProductAPI) (operation : GoStr)
    (ps : List (GoStr × GoStr)) (hak : IsBytes api.accessKey)
    (hat : IsBytes api.associateTag) (hop : IsBytes operation)
    (hps : PairsBytes ps) : ValuesBytes (mergedValues api operation ps) :=
  valuesBytes_foldl (valuesBytes_fixed api operation hak hat hop) hps

theorem mem_encodeTokens_bytes {vs : Values} (hB : ValuesBytes vs) {t : GoStr}
    (h : t ∈ ((sortStrings (Values.keys vs)).map (Values.tokensFor vs)).flatten) :
    ∃ k v, IsBytes k ∧ IsBytes v ∧ t = queryEscape k ++ 61 :: queryEscape v := by
  rcases List.mem_flatten.1 h with ⟨l, hl, ht⟩
  rcases List.mem_map.1 hl with ⟨k, hk, rfl⟩
  have hkk : k ∈ Values.keys vs := (List.mem_insertionSort strLeP).1 hk
  unfold Values.tokensFor at ht
  rcases List.mem_map.1 ht with ⟨v, hv, rfl⟩
  refine ⟨k, v, ?_, ?_, rfl⟩
  · unfold Values.keys at hkk
    rcases List.mem_map.1 hkk with ⟨kv, hkv, rfl⟩
    exact (hB kv hkv).1
  · rcases hg : Values.get vs k with _ | l
    · rw [hg] at hv
      exact absurd hv (List.not_mem_nil v)
    · rw [hg] at hv
      rcases Values.get_some_mem hg with ⟨kv, hkv, rfl⟩
      exact (hB kv hkv).2 v hv

theorem parseQuery_foldl_none :
    ∀ (pieces : List GoStr) (m : Values),
      (∀ p ∈ pieces, p = [] ∨ ∃ k v, IsBytes k ∧ IsBytes v ∧
        p = queryEscape k ++ 61 :: queryEscape v) →
      (pieces.foldl parseQueryStep (m, none)).2 = none
  | [], _, _ => rfl
  | p :: rest, m, h => by
    have hrest : ∀ q ∈ rest, q = [] ∨ ∃ k v, IsBytes k ∧ IsBytes v ∧
        q = queryEscape k ++ 61 :: queryEscape v :=
      fun q hq => h q (List.mem_cons_of_mem p hq)
    rcases h p (List.mem_cons_self p rest) with rfl | ⟨k, v, hk, hv, rfl⟩
    · rw [List.foldl_cons,
        show parseQueryStep (m, none) [] = (m, none) by simp [parseQueryStep]]
      exact parseQuery_foldl_none rest m hrest
    · rw [List.foldl_cons]
      have h59 : ¬(59 ∈ queryEscape k ++ 61 :: queryEscape v) :=
        fun hc => (token_avoid hc).2.2.2 rfl
      have hnil : ¬(queryEscape k ++ 61 :: queryEscape v = []) := by simp
      have hcut : cutByte 61 (queryEscape k ++ 61 :: queryEscape v) =
          (queryEscape k, queryEscape v, true) :=
        cutByte_append _ fun hc => (queryEscape_avoid hc).2.2.2.2 rfl
      have hstep : parseQueryStep (m, none)
          (queryEscape k ++ 61 :: queryEscape v) = (Values.add m k v, none) := by
        simp only [parseQueryStep, if_neg h59, if_neg hnil, hcut,
          unescapeQuery_queryEscape hk, unescapeQuery_queryEscape hv]
      rw [hstep]
      exact parseQuery_foldl_none rest (Values.add m k v) hrest

/-- `url.ParseQuery` never returns an error on the output of
`url.Values.Encode` (for byte-valid values); hence `setTimestamp` cannot
fail inside the pipeline, and `genSignAndFetch`'s discarding of its return
value never discards an actual error. -/
theorem parseQuery_encode_none {vs : Values} (hB : ValuesBytes vs) :
    (parseQuery (Values.encode vs)).2 = none := by
  unfold parseQuery
  by_cases hnil :
      ((sortStrings (Values.keys vs)).map (Values.tokensFor vs)).flatten = []
  · have henc : Values.encode vs = [] := by
      unfold Values.encode
      rw [hnil]
      rfl
    rw [henc, show splitOnByte 38 ([] : GoStr) = [[]] from rfl]
    refine parseQuery_foldl_none [[]] [] ?_
    intro p hp
    rcases List.mem_singleton.1 hp with rfl
    exact Or.inl rfl
  · rw [splitOn_encode hnil]
    refine parseQuery_foldl_none _ [] ?_
    intro p hp
    exact Or.inr (mem_encodeTokens_bytes hB hp)

/-- C7: every error that arises inside the request pipeline is returned to
the immediate caller of `genSignAndFetch`/`Search`: a URL-generation error,
a signing (`hasher.Write`) error, a transport error (`Client.Get` or
`ReadAll`) and a decoding (`xml.Unmarshal`) error each surface unchanged,
and the timestamp step — whose return value the code discards — cannot
produce an error, since `ParseQuery` always succeeds on the query built by
`Values.Encode` (for byte-valid inputs). -/
theorem claim_c7 (api : AmazonProductAPI) (operation : GoStr)
    (ps : List (GoStr × GoStr)) (hak : IsBytes api.accessKey)
    (hat : IsBytes api.associateTag) (hop : IsBytes operation)
    (hps : PairsBytes ps) :
    (∀ (e : GoErr) (hw : GoStr → Option GoErr)
      (get ra : GoStr → Except GoErr GoStr) (now : GoStr),
      genSignAndFetch (fun _ => .error e) hw get ra now api operation ps =
        .error e) ∧
    (∀ now : GoStr, ∃ u2, setTimestamp now
      { scheme := str "http", host := api.host, path := str "/onca/xml",
        rawQuery := Values.encode (mergedValues api operation ps) } =
        .ok u2) ∧
    (∀ (e : GoErr) (get ra : GoStr → Except GoErr GoStr) (now : GoStr),
      genSignAndFetch urlParseOk (fun _ => some e) get ra now api operation
        ps = .error e) ∧
    (∀ (e : GoErr) (ra : GoStr → Except GoErr GoStr) (now : GoStr),
      genSignAndFetch urlParseOk hashWriteOk (fun _ => .error e) ra now api
        operation ps = .error e) ∧
    (∀ (e : GoErr) (body now : GoStr),
      genSignAndFetch urlParseOk hashWriteOk (fun _ => .ok body)
        (fun _ => .error e) now api operation ps = .error e) ∧
    (∀ body now : GoStr,
      genSignAndFetch urlParseOk hashWriteOk (fun _ => .ok body)
        (fun r => .ok r) now api operation ps = .ok body) ∧
    (∀ (e : GoErr) (body now index kw : GoStr) (page : Int),
      amazonSearch urlParseOk hashWriteOk (fun _ => .ok body)
        (fun r => .ok r) now (fun _ => .error e) api index kw page =
        .error e) ∧
    (∀ (e : GoErr) (now index kw : GoStr) (page : Int)
      (unmarshal : GoStr → Except GoErr ItemSearchResponse),
      amazonSearch urlParseOk hashWriteOk (fun _ => .error e)
        (fun r => .ok r) now unmarshal api index kw page = .error e) := by
  refine ⟨fun e hw get ra now => rfl, ?_, fun e get ra now => rfl,
    fun e ra now => rfl, fun e body now => rfl, fun body now => rfl,
    fun e body now index kw page => rfl,
    fun e now index kw page unmarshal => rfl⟩
  intro now
  have hB := valuesBytes_merged api operation ps hak hat hop hps
  have hp := parseQuery_encode_none hB
  rcases hq : parseQuery (Values.encode (mergedValues api operation ps))
    with ⟨vals, err⟩
  rw [hq] at hp
  simp only at hp
  subst hp
  exact ⟨{ scheme := str "http", host := api.host, path := str "/onca/xml", rawQuery := Values.encode (Values.set vals (str "Timestamp") now) }, by unfold setTimestamp; rw [hq]⟩

theorem claim_c7_witness :
    IsBytes apiW.accessKey ∧ IsBytes apiW.associateTag ∧
    IsBytes (str "ItemSearch") ∧ PairsBytes [(str "A", str "1")] ∧
    genSignAndFetch (fun _ => .error 7) hashWriteOk (fun _ => .ok [])
      (fun r => .ok r) (str "T") apiW (str "ItemSearch")
      [(str "A", str "1")] = .error 7 :=
  ⟨by decide, by decide, by decide, by decide,
    (claim_c7 apiW (str "ItemSearch") [(str "A", str "1")] (by decide)
      (by decide) (by decide) (by decide)).1 7 hashWriteOk (fun _ => .ok [])
      (fun r => .ok r) (str "T")⟩

/-! ## Lemmas for signature sensitivity (C8) -/

theorem encode_pairsValues_tokens {ps : List (GoStr × GoStr)}
    (hnd : (ps.map Prod.fst).Nodup) :
    ((sortStrings (Values.keys (pairsValues ps))).map
      (Values.tokensFor (pairsValues ps))).flatten.Perm
      (ps.map tokenOfPair) := by
  have h1 : (sortStrings (Values.keys (pairsValues ps))).map
        (Values.tokensFor (pairsValues ps)) =
      (sortStrings (ps.map Prod.fst)).map
        (fun k => [tokenOfPair (k, (lookupPairs ps k).getD [])]) := by
    rw [keys_pairsValues]
    refine List.map_congr_left ?_
    intro k hk
    have hkmem : k ∈ ps.map Prod.fst := (List.mem_insertionSort strLeP).1 hk
    rcases ho : lookupPairs ps k with _ | v
    · exact absurd hkmem (lookupPairs_eq_none.1 ho)
    · unfold Values.tokensFor tokenOfPair
      rw [get_pairsValues, ho]
      simp
  rw [h1, flatten_map_singleton]
  have h2 : (sortStrings (ps.map Prod.fst)).map
        (fun k => tokenOfPair (k, (lookupPairs ps k).getD [])) |>.Perm
      ((ps.map Prod.fst).map
        (fun k => tokenOfPair (k, (lookupPairs ps k).getD []))) :=
    (List.perm_insertionSort strLeP _).map _
  refine h2.trans ?_
  rw [List.map_map]
  have h3 : ps.map ((fun k => tokenOfPair (k, (lookupPairs ps k).getD [])) ∘
      Prod.fst) = ps.map tokenOfPair := by
    refine List.map_congr_left ?_
    intro kv hkv
    have : lookupPairs ps kv.1 = some kv.2 :=
      lookupPairs_of_mem (by rw [show ((kv.1, kv.2) : GoStr × GoStr) = kv from rfl]; exact hkv) hnd
    simp [Function.comp, this]
  rw [h3]

theorem splitOn_encode_pairsValues {ps : List (GoStr × GoStr)}
    (hnd : (ps.map Prod.fst).Nodup) (hne : ps ≠ []) :
    (splitOnByte 38 (Values.encode (pairsValues ps))).Perm
      (ps.map tokenOfPair) := by
  have hperm := encode_pairsValues_tokens hnd
  have hflat_ne : ((sortStrings (Values.keys (pairsValues ps))).map
      (Values.tokensFor (pairsValues ps))).flatten ≠ [] := by
    intro h0
    rw [h0] at hperm
    exact hne (List.map_eq_nil_iff.1 (List.Perm.symm hperm).eq_nil)
  rw [splitOn_encode hflat_ne]
  exact hperm

theorem tokenOfPair_inj : Function.Injective tokenOfPair := by
  rintro ⟨k1, v1⟩ ⟨k2, v2⟩ h
  unfold tokenOfPair at h
  obtain ⟨hk, hv⟩ := append_cons_inj
    (fun hc => (queryEscape_avoid hc).2.2.2.2 rfl)
    (fun hc => (queryEscape_avoid hc).2.2.2.2 rfl) h
  rw [Prod.mk.injEq]
  exact ⟨queryEscape_inj hk, queryEscape_inj hv⟩

/-- Equal canonical query strings over single-valued parameter maps force
the maps to be permutations of each other. -/
theorem canonical_encode_pairs_inj {ps1 ps2 : List (GoStr × GoStr)}
    (hnd1 : (ps1.map Prod.fst).Nodup) (hnd2 : (ps2.map Prod.fst).Nodup)
    (hne1 : ps1 ≠ []) (hne2 : ps2 ≠ [])
    (h : canonicalQuery (Values.encode (pairsValues ps1)) =
      canonicalQuery (Values.encode (pairsValues ps2))) : ps1.Perm ps2 := by
  have hs := congrArg (splitOnByte 38) h
  rw [splitOn_canonicalQuery, splitOn_canonicalQuery, escapeRawQuery_encode,
    escapeRawQuery_encode] at hs
  have hp1 := splitOn_encode_pairsValues hnd1 hne1
  have hp2 := splitOn_encode_pairsValues hnd2 hne2
  have hbig : (ps1.map tokenOfPair).Perm (ps2.map tokenOfPair) := by
    refine (hp1.symm.trans ?_).trans hp2
    have t1 := List.perm_insertionSort strLeP
      (splitOnByte 38 (Values.encode (pairsValues ps1)))
    have t2 := List.perm_insertionSort strLeP
      (splitOnByte 38 (Values.encode (pairsValues ps2)))
    have t2' : (sortStrings (splitOnByte 38
        (Values.encode (pairsValues ps1)))).Perm
        (splitOnByte 38 (Values.encode (pairsValues ps2))) := by
      rw [hs]
      exact t2
    exact t1.symm.trans t2'
  have hmult : (↑ps1 : Multiset (GoStr × GoStr)) = ↑ps2 := by
    apply Multiset.map_injective tokenOfPair_inj
    rw [Multiset.map_coe, Multiset.map_coe]
    exact Multiset.coe_eq_coe.2 hbig
  exact Multiset.coe_eq_coe.1 hmult

/-- C8: signing inputs that differ only in the host, only in the path, or
only in the value of a single parameter (same keys, all other lookups equal,
Go-map unique keys) produce different strings-to-sign. -/
theorem claim_c8 (host1 host2 path1 path2 : GoStr)
    (ps1 ps2 : List (GoStr × GoStr)) (k v1 v2 : GoStr)
    (hh : host1 ≠ host2) (hp : path1 ≠ path2)
    (hnd1 : (ps1.map Prod.fst).Nodup) (hnd2 : (ps2.map Prod.fst).Nodup)
    (hl1 : lookupPairs ps1 k = some v1) (hl2 : lookupPairs ps2 k = some v2)
    (hv : v1 ≠ v2)
    (_hagree : ∀ k2, k2 ≠ k → lookupPairs ps1 k2 = lookupPairs ps2 k2) :
    (∀ p q : GoStr, stringToSign ⟨str "http", host1, p, q⟩ ≠
      stringToSign ⟨str "http", host2, p, q⟩) ∧
    (∀ hst q : GoStr, stringToSign ⟨str "http", hst, path1, q⟩ ≠
      stringToSign ⟨str "http", hst, path2, q⟩) ∧
    (∀ hst p : GoStr,
      stringToSign ⟨str "http", hst, p, Values.encode (pairsValues ps1)⟩ ≠
      stringToSign ⟨str "http", hst, p, Values.encode (pairsValues ps2)⟩) := by
  refine ⟨?_, ?_, ?_⟩
  · intro p q heq
    apply hh
    simp only [stringToSign, List.append_assoc] at heq
    have h1 := List.append_cancel_left heq
    rw [List.cons_append, List.cons_append] at h1
    injection h1 with _ h2
    exact List.append_cancel_right h2
  · intro hst q heq
    apply hp
    simp only [stringToSign, List.append_assoc] at heq
    have h1 := List.append_cancel_left heq
    rw [List.cons_append, List.cons_append] at h1
    injection h1 with _ h2
    have h3 := List.append_cancel_left h2
    injection h3 with _ h4
    exact List.append_cancel_right h4
  · intro hst p heq
    simp only [stringToSign, List.append_assoc] at heq
    have h1 := List.append_cancel_left heq
    rw [List.cons_append, List.cons_append] at h1
    injection h1 with _ h2
    have h3 := List.append_cancel_left h2
    injection h3 with _ h4
    have h5 := List.append_cancel_left h4
    injection h5 with _ h6
    have hne1 : ps1 ≠ [] := by
      intro h0
      rw [h0] at hl1
      exact Option.noConfusion hl1
    have hne2 : ps2 ≠ [] := by
      intro h0
      rw [h0] at hl2
      exact Option.noConfusion hl2
    have hperm := canonical_encode_pairs_inj hnd1 hnd2 hne1 hne2 h6
    have hlook := lookupPairs_perm hperm hnd1 k
    rw [hl1, hl2, Option.some.injEq] at hlook
    exact hv hlook

theorem claim_c8_witness :
    str "a" ≠ str "b" ∧ str "/p" ≠ str "/q" ∧
    (([((str "k"), (str "1"))].map (Prod.fst (α := GoStr) (β := GoStr))).Nodup) ∧
    (([((str "k"), (str "2"))].map (Prod.fst (α := GoStr) (β := GoStr))).Nodup) ∧
    lookupPairs [((str "k"), (str "1"))] (str "k") = some (str "1") ∧
    lookupPairs [((str "k"), (str "2"))] (str "k") = some (str "2") ∧
    str "1" ≠ str "2" ∧
    stringToSign ⟨str "http", str "a", str "/p", str "A=1"⟩ ≠
      stringToSign ⟨str "http", str "b", str "/p", str "A=1"⟩ ∧
    stringToSign ⟨str "http", str "a", str "/p", str "A=1"⟩ ≠
      stringToSign ⟨str "http", str "a", str "/q", str "A=1"⟩ ∧
    stringToSign ⟨str "http", str "a", str "/p",
        Values.encode (pairsValues [((str "k"), (str "1"))])⟩ ≠
      stringToSign ⟨str "http", str "a", str "/p",
        Values.encode (pairsValues [((str "k"), (str "2"))])⟩ := by
  have hagree : ∀ k2, k2 ≠ str "k" →
      lookupPairs [((str "k"), (str "1"))] k2 =
        lookupPairs [((str "k"), (str "2"))] k2 := by
    intro k2 hk2
    have hne : ¬(str "k" = k2) := fun hh => hk2 hh.symm
    simp [lookupPairs, hne]
  have happ := claim_c8 (str "a") (str "b") (str "/p") (str "/q")
    [((str "k"), (str "1"))] [((str "k"), (str "2"))]
    (str "k") (str "1") (str "2") (by decide) (by decide) (by decide)
    (by decide) (by decide) (by decide) (by decide) hagree
  exact ⟨by decide, by decide, by decide, by decide, by decide, by decide,
    by decide, happ.1 (str "/p") (str "A=1"), happ.2.1 (str "a") (str "A=1"),
    happ.2.2 (str "a") (str "/p")⟩
